import Mathlib

/-!
# mdclaw — verification of the execution-orchestration core

Shallow embedding, in Lean 4, of the parts of the mdclaw repository that the
claims under scrutiny are about:

* the sentinel-delimited output parser (`parseAllOutputs` /
  `parseContainerOutput` from `test/integration.test.ts`, also generated into
  `src/container.ts`);
* the atomic IPC command writer (`container/agent-runner/src/ipc-writer.ts`)
  together with a model of the JavaScript `JSON.stringify(·, null, 2)` /
  `JSON.parse` builtins it relies on;
* the agent-runner's secret loading and SDK-environment construction
  (`container/agent-runner/src/index.ts`);
* the multi-turn follow-up `MessageStream` (the polling variant shipped in
  the agent-runner, `message-stream.ts`);
* the per-group execution queue, the IPC authorization model and the cursor
  rollback rule.  The host-side code for these is generated at setup time
  from the repository's anchor contracts and skills and is not shipped as
  TypeScript; those parts are modelled from the specification documents, and
  every such definition carries a doc comment starting `Modelled from the
  spec:`.

Strings from the TypeScript side are embedded as `List Char`; JavaScript
numbers that occur in the modelled data are integers, so they are embedded
as `Int` (general float formatting is out of scope and noted where it
matters); machine-level concerns (UTF-16 lone surrogates, file-system
failures) are noted at the definitions they would affect.
-/

namespace Mdclaw

/-! ## Character-level helpers shared by the embeddings -/

/-- Decimal digit test, as used by the JSON number grammar. -/
def isDigitCh (c : Char) : Bool :=
  c = '0' || c = '1' || c = '2' || c = '3' || c = '4' ||
  c = '5' || c = '6' || c = '7' || c = '8' || c = '9'

/-- The character for a single decimal digit (`d < 10`). -/
def digitCh (d : Nat) : Char := Char.ofNat ('0'.toNat + d)

/-- Decimal numeral of a natural number, most significant digit first.
Matches the JavaScript `Number.prototype.toString` output on non-negative
integers (no sign, no leading zeros, `0 ↦ "0"`). -/
def natToChars (n : Nat) : List Char :=
  if _h : n < 10 then [digitCh n]
  else natToChars (n / 10) ++ [digitCh (n % 10)]
  decreasing_by exact Nat.div_lt_self (by omega) (by omega)

/-- Numeric value of a digit list (fold of `a * 10 + digit`). -/
def digitsVal (ds : List Char) : Nat :=
  ds.foldl (fun a c => a * 10 + (c.toNat - '0'.toNat)) 0

/-- `strMatch pat s` — does `pat` occur at the very front of `s`?
This is the primitive in terms of which substring search is embedded. -/
def strMatch : List Char → List Char → Bool
  | [], _ => true
  | _ :: _, [] => false
  | p :: ps, c :: cs => p = c && strMatch ps cs

/-- Scan of the suffixes of a string, carrying the absolute index: the
first position `≥ i` at which `pat` occurs. -/
def scanFrom (pat : List Char) : List Char → Nat → Option Nat
  | [], i => if strMatch pat [] then some i else none
  | c :: t, i => if strMatch pat (c :: t) then some i else scanFrom pat t (i + 1)

/-- JavaScript `String.prototype.indexOf(pat, start)`: the first index
`i ≥ start` at which `pat` occurs in `s`, if any. -/
def strIndexOfFrom (s pat : List Char) (start : Nat) : Option Nat :=
  scanFrom pat (s.drop start) start

/-- JavaScript `String.prototype.slice(a, b)` for `0 ≤ a ≤ b ≤ length`:
the characters at indices `[a, b)`. -/
def jsSlice (s : List Char) (a b : Nat) : List Char := (s.take b).drop a

/-- The ECMAScript WhiteSpace ∪ LineTerminator set stripped by
`String.prototype.trim`. -/
def isJsWs (c : Char) : Bool :=
  c = '\t' || c = '\n' || c = '\x0b' || c = '\x0c' || c = '\r' || c = ' ' ||
  c = ' ' || c = ' ' || (' ' ≤ c && c ≤ ' ') ||
  c = ' ' || c = ' ' || c = ' ' || c = ' ' ||
  c = '　' || c = '﻿'

/-- JavaScript `String.prototype.trim`. -/
def jsTrim (s : List Char) : List Char :=
  ((s.dropWhile isJsWs).reverse.dropWhile isJsWs).reverse

/-! ## Output parser (`test/integration.test.ts`, lines 350–378)

The two sentinel protocol constants and the two scanning functions,
translated from the TypeScript source. -/

def OUTPUT_START_MARKER : List Char := "---NANOCLAW_OUTPUT_START---".data

def OUTPUT_END_MARKER : List Char := "---NANOCLAW_OUTPUT_END---".data

/-- Positions reported by `scanFrom` lie between the start index and the end
of the scanned suffix. -/
theorem scanFrom_bounds (pat : List Char) :
    ∀ rest i j, scanFrom pat rest i = some j → i ≤ j ∧ j ≤ i + rest.length := by
  intro rest
  induction rest with
  | nil => intro i j h; simp only [scanFrom] at h; split at h <;> simp_all
  | cons c t ih =>
    intro i j h
    simp only [scanFrom] at h
    split at h
    · simp_all
    · have := ih (i + 1) j h
      simp only [List.length_cons]
      omega

/-- Positions reported by `strIndexOfFrom` for a nonempty pattern lie
between the start index and the end of the string. -/
theorem strIndexOfFrom_bounds (s pat : List Char) (start j : Nat)
    (hpat : pat ≠ []) (h : strIndexOfFrom s pat start = some j) :
    start ≤ j ∧ j ≤ s.length := by
  have hb := scanFrom_bounds pat (s.drop start) start j h
  rcases Nat.le_total start s.length with hle | hle
  · simp only [List.length_drop] at hb
    omega
  · exfalso
    have hdrop : s.drop start = [] := List.drop_eq_nil_of_le (by omega)
    rw [strIndexOfFrom, hdrop] at h
    cases pat with
    | nil => exact hpat rfl
    | cons p ps => simp [scanFrom, strMatch] at h

/-- The scanning loop of `parseAllOutputs` (integration.test.ts:365–378):
repeatedly find the start marker at or after `searchFrom`
(`raw.indexOf(OUTPUT_START_MARKER, searchFrom)`), then the end marker after
it, collect the trimmed slice in between, and resume after the end marker. -/
def parseOutputsLoop (raw : List Char) (searchFrom : Nat) : List (List Char) :=
  match h1 : strIndexOfFrom raw OUTPUT_START_MARKER searchFrom with
  | none => []
  | some startIdx =>
    match h2 : strIndexOfFrom raw OUTPUT_END_MARKER
        (startIdx + OUTPUT_START_MARKER.length) with
    | none => []
    | some endIdx =>
      jsTrim (jsSlice raw (startIdx + OUTPUT_START_MARKER.length) endIdx) ::
        parseOutputsLoop raw (endIdx + OUTPUT_END_MARKER.length)
  termination_by raw.length + 1 - searchFrom
  decreasing_by
    have hs := strIndexOfFrom_bounds raw OUTPUT_START_MARKER searchFrom startIdx
      (by decide) h1
    have he := strIndexOfFrom_bounds raw OUTPUT_END_MARKER
      (startIdx + OUTPUT_START_MARKER.length) endIdx (by decide) h2
    have h27 : OUTPUT_START_MARKER.length = 27 := by decide
    have h25 : OUTPUT_END_MARKER.length = 25 := by decide
    omega

/-- `parseAllOutputs` (integration.test.ts:365–378): every sentinel-delimited
block of a container's stdout, in order of appearance. -/
def parseAllOutputs (raw : List Char) : List (List Char) :=
  parseOutputsLoop raw 0

/-- The scanning loop of `parseContainerOutput` (integration.test.ts:350–363):
the same scan, but only the most recent block is kept in `lastOutput`. -/
def parseLastLoop (raw : List Char) (searchFrom : Nat) (lastOutput : List Char) :
    List Char :=
  match h1 : strIndexOfFrom raw OUTPUT_START_MARKER searchFrom with
  | none => lastOutput
  | some startIdx =>
    match h2 : strIndexOfFrom raw OUTPUT_END_MARKER
        (startIdx + OUTPUT_START_MARKER.length) with
    | none => lastOutput
    | some endIdx =>
      parseLastLoop raw (endIdx + OUTPUT_END_MARKER.length)
        (jsTrim (jsSlice raw (startIdx + OUTPUT_START_MARKER.length) endIdx))
  termination_by raw.length + 1 - searchFrom
  decreasing_by
    have hs := strIndexOfFrom_bounds raw OUTPUT_START_MARKER searchFrom startIdx
      (by decide) h1
    have he := strIndexOfFrom_bounds raw OUTPUT_END_MARKER
      (startIdx + OUTPUT_START_MARKER.length) endIdx (by decide) h2
    have h27 : OUTPUT_START_MARKER.length = 27 := by decide
    have h25 : OUTPUT_END_MARKER.length = 25 := by decide
    omega

/-- `parseContainerOutput` (integration.test.ts:350–363): the last
sentinel-delimited block, or the empty string when there is none. -/
def parseContainerOutput (raw : List Char) : List Char :=
  parseLastLoop raw 0 []

/-! ### Occurrence structure of a sentinel stream

Program-independent vocabulary for where a pattern occurs in a stream; the
claims about the parser are stated against it. -/

/-- `pat` occurs in `s` at position `i`. -/
def occursAt (s pat : List Char) (i : Nat) : Prop :=
  strMatch pat (s.drop i) = true

instance (s pat : List Char) (i : Nat) : Decidable (occursAt s pat i) :=
  inferInstanceAs (Decidable (_ = true))

/-- `i` is the first position at or after `start` where `pat` occurs. -/
def firstOccFrom (s pat : List Char) (start i : Nat) : Prop :=
  start ≤ i ∧ occursAt s pat i ∧ ∀ j < i, start ≤ j → ¬ occursAt s pat j

instance (s pat : List Char) (start i : Nat) : Decidable (firstOccFrom s pat start i) :=
  inferInstanceAs (Decidable (_ ∧ _ ∧ _))

/-- `pat` does not occur at or after position `start`. -/
def noOccFrom (s pat : List Char) (start : Nat) : Prop :=
  ∀ i, start ≤ i → ¬ occursAt s pat i

/-- A stream `raw` carries exactly the delimited blocks described by the
index pairs `ps`, reading from position `sf` on: each pair is the first
start-marker occurrence followed by the first end-marker occurrence after
it, and past the last pair no further start marker appears.  This is the
"input string containing delimited blocks between the two fixed delimiter
markers" shape, expressed purely in terms of marker occurrences. -/
inductive DelimitedBlocks (raw : List Char) : Nat → List (Nat × Nat) → Prop
  | nil (sf : Nat) (h : noOccFrom raw OUTPUT_START_MARKER sf) :
      DelimitedBlocks raw sf []
  | cons (sf s e : Nat) (ps : List (Nat × Nat))
      (hs : firstOccFrom raw OUTPUT_START_MARKER sf s)
      (he : firstOccFrom raw OUTPUT_END_MARKER (s + OUTPUT_START_MARKER.length) e)
      (ht : DelimitedBlocks raw (e + OUTPUT_END_MARKER.length) ps) :
      DelimitedBlocks raw sf ((s, e) :: ps)

/-! ### Lemmas: `strIndexOfFrom` computes first occurrences -/

/-- A pattern occurs at the front of itself followed by anything. -/
theorem strMatch_append (pat rest : List Char) :
    strMatch pat (pat ++ rest) = true := by
  induction pat with
  | nil => rfl
  | cons p ps ih => simp [strMatch, ih]

/-- A match forces the pattern to fit inside the matched suffix. -/
theorem strMatch_length_le (pat : List Char) :
    ∀ s, strMatch pat s = true → pat.length ≤ s.length := by
  induction pat with
  | nil => intro s _; simp
  | cons p ps ih =>
    intro s h
    cases s with
    | nil => simp [strMatch] at h
    | cons c cs =>
      simp only [strMatch, Bool.and_eq_true] at h
      have := ih cs h.2
      simp only [List.length_cons]
      omega

/-- An occurrence of a nonempty pattern lies strictly inside the string. -/
theorem occursAt_lt_length (s pat : List Char) (i : Nat)
    (hpat : pat ≠ []) (h : occursAt s pat i) : i < s.length := by
  have hle := strMatch_length_le pat (s.drop i) h
  simp only [List.length_drop] at hle
  have : 0 < pat.length := List.length_pos.mpr hpat
  omega

/-- `scanFrom` finds the first occurrence, completeness half. -/
theorem scanFrom_of_firstOcc (s pat : List Char) (hpat : pat ≠ []) :
    ∀ rest start i, s.drop start = rest → firstOccFrom s pat start i →
      scanFrom pat rest start = some i := by
  intro rest
  induction rest with
  | nil =>
    intro start i hdrop hfo
    obtain ⟨hsi, hocc, _⟩ := hfo
    exfalso
    have hi := occursAt_lt_length s pat i hpat hocc
    have hlen : s.length ≤ start := by
      by_contra hc
      have hld : (s.drop start).length = s.length - start := List.length_drop ..
      rw [hdrop] at hld
      simp at hld
      omega
    omega
  | cons c t ih =>
    intro start i hdrop hfo
    obtain ⟨hsi, hocc, hmin⟩ := hfo
    by_cases hocc0 : occursAt s pat start
    · have heq : start = i := by
        rcases Nat.lt_or_ge start i with hlt | hge
        · exact absurd hocc0 (hmin start hlt (Nat.le_refl _))
        · omega
      subst heq
      have : strMatch pat (c :: t) = true := by rw [← hdrop]; exact hocc
      simp [scanFrom, this]
    · have hm : strMatch pat (c :: t) = false := by
        rw [← hdrop]
        exact Bool.not_eq_true _ ▸ (by simpa [occursAt] using hocc0)
      have hne : start ≠ i := fun hEq => hocc0 (hEq ▸ hocc)
      have hfo' : firstOccFrom s pat (start + 1) i :=
        ⟨by omega, hocc, fun j hj hj2 => hmin j hj (by omega)⟩
      have hdrop' : s.drop (start + 1) = t := by
        have := List.tail_drop s start
        rw [hdrop] at this
        simpa using this.symm
      simp [scanFrom, hm, ih (start + 1) i hdrop' hfo']

/-- `strIndexOfFrom` finds the first occurrence. -/
theorem strIndexOfFrom_of_firstOcc (s pat : List Char) (start i : Nat)
    (hpat : pat ≠ []) (h : firstOccFrom s pat start i) :
    strIndexOfFrom s pat start = some i :=
  scanFrom_of_firstOcc s pat hpat (s.drop start) start i rfl h

/-- `scanFrom` reports nothing when there is no occurrence. -/
theorem scanFrom_of_noOcc (s pat : List Char) :
    ∀ rest start, s.drop start = rest → noOccFrom s pat start →
      scanFrom pat rest start = none := by
  intro rest
  induction rest with
  | nil =>
    intro start hdrop hno
    have : strMatch pat [] = false := by
      have := hno start (Nat.le_refl _)
      rw [occursAt, hdrop] at this
      simpa using this
    simp [scanFrom, this]
  | cons c t ih =>
    intro start hdrop hno
    have hm : strMatch pat (c :: t) = false := by
      have := hno start (Nat.le_refl _)
      rw [occursAt, hdrop] at this
      simpa using this
    have hdrop' : s.drop (start + 1) = t := by
      have := List.tail_drop s start
      rw [hdrop] at this
      simpa using this.symm
    simp [scanFrom, hm,
      ih (start + 1) hdrop' (fun j hj => hno j (by omega))]

/-- `strIndexOfFrom` reports nothing when there is no occurrence. -/
theorem strIndexOfFrom_of_noOcc (s pat : List Char) (start : Nat)
    (h : noOccFrom s pat start) : strIndexOfFrom s pat start = none :=
  scanFrom_of_noOcc s pat (s.drop start) start rfl h

/-- Past the end of the string a nonempty pattern no longer occurs. -/
theorem noOccFrom_of_length_le (s pat : List Char) (start : Nat)
    (hpat : pat ≠ []) (h : s.length ≤ start) : noOccFrom s pat start := by
  intro i hi hocc
  have := occursAt_lt_length s pat i hpat hocc
  omega

/-- Restriction of `noOccFrom` to the in-range positions is enough. -/
theorem noOccFrom_of_ball (s pat : List Char) (start : Nat) (hpat : pat ≠ [])
    (h : ∀ i < s.length, start ≤ i → ¬ occursAt s pat i) :
    noOccFrom s pat start := by
  intro i hi hocc
  exact h i (occursAt_lt_length s pat i hpat hocc) hi hocc

/-- The block-scanning loop stops when no start marker is found. -/
theorem parseOutputsLoop_of_noStart (raw : List Char) (sf : Nat)
    (h : strIndexOfFrom raw OUTPUT_START_MARKER sf = none) :
    parseOutputsLoop raw sf = [] := by
  rw [parseOutputsLoop.eq_def]
  split
  · rfl
  · simp_all

/-- The block-scanning loop collects one block and continues past it. -/
theorem parseOutputsLoop_of_block (raw : List Char) (sf s₁ e₁ : Nat)
    (h1 : strIndexOfFrom raw OUTPUT_START_MARKER sf = some s₁)
    (h2 : strIndexOfFrom raw OUTPUT_END_MARKER
        (s₁ + OUTPUT_START_MARKER.length) = some e₁) :
    parseOutputsLoop raw sf =
      jsTrim (jsSlice raw (s₁ + OUTPUT_START_MARKER.length) e₁) ::
        parseOutputsLoop raw (e₁ + OUTPUT_END_MARKER.length) := by
  rw [parseOutputsLoop.eq_def]
  split
  · simp_all
  · rename_i s' h1'
    rw [h1'] at h1
    cases h1
    split
    · simp_all
    · rename_i e' h2'
      rw [h2'] at h2
      cases h2
      rfl

/-- The block-scanning loop stops on a start marker with no end marker. -/
theorem parseOutputsLoop_of_noEnd (raw : List Char) (sf s₁ : Nat)
    (h1 : strIndexOfFrom raw OUTPUT_START_MARKER sf = some s₁)
    (h2 : strIndexOfFrom raw OUTPUT_END_MARKER
        (s₁ + OUTPUT_START_MARKER.length) = none) :
    parseOutputsLoop raw sf = [] := by
  rw [parseOutputsLoop.eq_def]
  split
  · rfl
  · rename_i s' h1'
    rw [h1'] at h1
    cases h1
    split
    · rfl
    · simp_all

/-- The scanning loop turns the delimited-block structure of the stream into
the list of trimmed block bodies, in order. -/
theorem parseOutputsLoop_of_delimited (raw : List Char) (sf : Nat)
    (ps : List (Nat × Nat)) (h : DelimitedBlocks raw sf ps) :
    parseOutputsLoop raw sf = ps.map
      (fun p => jsTrim (jsSlice raw (p.1 + OUTPUT_START_MARKER.length) p.2)) := by
  induction h with
  | nil sf h =>
    simp [parseOutputsLoop_of_noStart raw sf (strIndexOfFrom_of_noOcc _ _ _ h)]
  | cons sf s e ps hs he ht ih =>
    rw [parseOutputsLoop_of_block raw sf s e
      (strIndexOfFrom_of_firstOcc _ _ _ _ (by decide) hs)
      (strIndexOfFrom_of_firstOcc _ _ _ _ (by decide) he), ih]
    rfl

/-- C6 — the claim's theorem.  For every input stream whose delimited-block
structure is described by the index pairs `ps` (each pair the first
start-marker occurrence and the first end-marker occurrence after it,
arbitrary noise in between and around), `parseAllOutputs` returns exactly
the block contents, in order of appearance (trimmed, as the code trims each
block body). -/
theorem parseAllOutputs_blocks_in_order (raw : List Char) (ps : List (Nat × Nat))
    (h : DelimitedBlocks raw 0 ps) :
    parseAllOutputs raw = ps.map
      (fun p => jsTrim (jsSlice raw (p.1 + OUTPUT_START_MARKER.length) p.2)) :=
  parseOutputsLoop_of_delimited raw 0 ps h

/-- The exact input named by the claim: noise, a block `A`, more noise, a
block `B`, with the two real delimiter constants. -/
def noiseStream : List Char :=
  ("noise\n---NANOCLAW_OUTPUT_START---\nA\n---NANOCLAW_OUTPUT_END---" ++
   "\nnoise\n---NANOCLAW_OUTPUT_START---\nB\n---NANOCLAW_OUTPUT_END---").data

/-- C6 — witness: feeding the claim's concrete noise-interleaved stream
yields the ordered block list `["A", "B"]`. -/
theorem parseAllOutputs_blocks_in_order_witness :
    parseAllOutputs noiseStream = ["A".data, "B".data] := by
  have h : DelimitedBlocks noiseStream 0 [(6, 36), (68, 98)] :=
    .cons 0 6 36 _ (by decide) (by decide)
      (.cons 61 68 98 _ (by decide) (by decide)
        (.nil 123 (noOccFrom_of_length_le _ _ _ (by decide) (by decide))))
  rw [parseAllOutputs_blocks_in_order noiseStream _ h]
  decide

/-- The last-block scan is the fold of the all-blocks scan: it returns the
last collected block, or its accumulator when no block is collected
(stated with an explicit bound `m` on the scan measure for the induction). -/
theorem parseLastLoop_eq_getLastD_aux (raw : List Char) :
    ∀ m sf acc, raw.length + 1 - sf ≤ m →
      parseLastLoop raw sf acc = (parseOutputsLoop raw sf).getLastD acc := by
  intro m
  induction m with
  | zero =>
    intro sf acc hm
    have hnone : strIndexOfFrom raw OUTPUT_START_MARKER sf = none :=
      strIndexOfFrom_of_noOcc raw _ sf
        (noOccFrom_of_length_le raw _ sf (by decide) (by omega))
    rw [parseLastLoop.eq_def]
    split
    · rw [parseOutputsLoop_of_noStart raw sf hnone]
      rfl
    · simp_all
  | succ m ih =>
    intro sf acc hm
    rw [parseLastLoop.eq_def]
    split
    · rename_i h1
      rw [parseOutputsLoop_of_noStart raw sf h1]
      rfl
    · rename_i s₁ h1
      split
      · rename_i h2
        rw [parseOutputsLoop_of_noEnd raw sf s₁ h1 h2]
        rfl
      · rename_i e₁ h2
        rw [parseOutputsLoop_of_block raw sf s₁ e₁ h1 h2, List.getLastD_cons]
        have hs := strIndexOfFrom_bounds raw OUTPUT_START_MARKER sf s₁
          (by decide) h1
        have he := strIndexOfFrom_bounds raw OUTPUT_END_MARKER
          (s₁ + OUTPUT_START_MARKER.length) e₁ (by decide) h2
        have h27 : OUTPUT_START_MARKER.length = 27 := by decide
        have h25 : OUTPUT_END_MARKER.length = 25 := by decide
        exact ih (e₁ + OUTPUT_END_MARKER.length)
          (jsTrim (jsSlice raw (s₁ + OUTPUT_START_MARKER.length) e₁))
          (by omega)

/-- C10 — the claim's theorem.  `parseContainerOutput` refines
`parseAllOutputs`: for every input, it equals the last element of
`parseAllOutputs` when that list is nonempty, and the empty string
(`[] : List Char`) when the list is empty — which is exactly
`List.getLastD · []`. -/
theorem parseContainerOutput_eq_last_block (raw : List Char) :
    parseContainerOutput raw = (parseAllOutputs raw).getLastD [] :=
  parseLastLoop_eq_getLastD_aux raw (raw.length + 1) 0 [] (by omega)

/-! ## Multi-turn follow-up stream (agent-runner `MessageStream`, polling
variant — the file whose lines 57–97 define `MessageStream.poll`)

The input directory is represented by its listing in the order
`fs.readdirSync(inputDir).sort()` returns it; an entry records the file
name and the outcome of reading + JSON-parsing the file (`none` =
malformed).  `unlinkSync` drops the entry from the listing. -/

/-- A follow-up message as read from an input file. -/
structure FollowUpMessage where
  sender : String
  sender_name : String
  content : String
  timestamp : String
deriving DecidableEq

/-- A directory entry of the `input/` directory. -/
structure InputEntry where
  name : List Char
  data : Option FollowUpMessage
deriving DecidableEq

/-- The reserved name of the close marker file. -/
def closeName : List Char := "_close".data

/-- The `.json` extension tested by `file.endsWith('.json')`. -/
def jsonExt : List Char := ".json".data

/-- `endsWithChars suffix s` — does `s` end with `suffix`? -/
def endsWithChars (suffix s : List Char) : Bool :=
  strMatch suffix.reverse s.reverse

/-- The mutable state of a `MessageStream`: the `closed` flag, whether a
consumer is awaiting the next message (`pendingResolve !== null`), the
in-memory `messageQueue`, and the current input directory. -/
structure StreamState where
  closed : Bool
  pending : Bool
  queue : List FollowUpMessage
  dir : List InputEntry
deriving DecidableEq

/-- Result of one `poll()` body: the flags and queue afterwards, the
directory afterwards, and the messages resolved directly to an awaiting
consumer. -/
structure PollResult where
  closed : Bool
  pending : Bool
  queue : List FollowUpMessage
  dir : List InputEntry
  delivered : List FollowUpMessage
deriving DecidableEq

/-- The file loop of `MessageStream.poll` (lines 68–96): on `_close`,
unlink it, `stop()` (set `closed`, resolve a pending consumer with done)
and return at once, leaving later entries untouched; skip names not ending
in `.json`; read, parse and unlink each message file, resolving an awaiting
consumer directly or appending to the queue; unlink malformed files. -/
def pollGo (pending : Bool) (queue : List FollowUpMessage) :
    List InputEntry → PollResult
  | [] => ⟨false, pending, queue, [], []⟩
  | e :: t =>
    if e.name = closeName then ⟨true, false, queue, t, []⟩
    else if endsWithChars jsonExt e.name = false then
      let r := pollGo pending queue t
      ⟨r.closed, r.pending, r.queue, e :: r.dir, r.delivered⟩
    else match e.data with
      | some m =>
        if pending then
          let r := pollGo false queue t
          ⟨r.closed, r.pending, r.queue, r.dir, m :: r.delivered⟩
        else pollGo pending (queue ++ [m]) t
      | none => pollGo pending queue t

/-- `MessageStream.poll` (lines 57–97): a no-op when already closed,
otherwise the file loop over the directory listing.  Returns the new state
and the messages handed directly to an awaiting consumer. -/
def streamPoll (st : StreamState) : StreamState × List FollowUpMessage :=
  if st.closed then (st, [])
  else
    let r := pollGo st.pending st.queue st.dir
    (⟨st.closed || r.closed, r.pending, r.queue, r.dir⟩, r.delivered)

/-- Outcome of one `next()` call of the async iterator. -/
inductive NextResult where
  | msg (m : FollowUpMessage)
  | done
  | wait
deriving DecidableEq

/-- The iterator's `next()` (lines 101–117): drain the in-memory queue
first, then report done when closed, otherwise park the consumer. -/
def streamNext (st : StreamState) : StreamState × NextResult :=
  match st.queue with
  | m :: rest => (⟨st.closed, st.pending, rest, st.dir⟩, .msg m)
  | [] =>
    if st.closed then (st, .done)
    else (⟨st.closed, true, st.queue, st.dir⟩, .wait)

/-- `shouldClose` (agent-runner `index.ts`, lines 176–187): test for the
`_close` marker and delete it when present. -/
def shouldClose (dir : List InputEntry) : Bool × List InputEntry :=
  if dir.any (fun e => e.name = closeName) then
    (true, dir.filter (fun e => e.name ≠ closeName))
  else (false, dir)

/-- The parsed messages the file loop extracts from a listing segment. -/
def entryMsgs (l : List InputEntry) : List FollowUpMessage :=
  l.filterMap (fun e =>
    if e.name = closeName then none
    else if endsWithChars jsonExt e.name = false then none
    else e.data)

/-- The entries the file loop leaves on disk from a listing segment
(those whose names do not end in `.json`). -/
def keptEntries (l : List InputEntry) : List InputEntry :=
  l.filter (fun e => e.name ≠ closeName && endsWithChars jsonExt e.name = false)

/-- Exact effect of the file loop on a listing that contains the close
marker: the loop stops at the marker, closes the stream, keeps everything
after the marker untouched, and the messages it picked up all come from
the entries before the marker. -/
theorem pollGo_marker (c : InputEntry) (hc : c.name = closeName) :
    ∀ pre post pending queue, (∀ e ∈ pre, e.name ≠ closeName) →
    pollGo pending queue (pre ++ c :: post) =
      ⟨true, false,
        queue ++ (entryMsgs pre).drop (if pending then 1 else 0),
        keptEntries pre ++ post,
        (entryMsgs pre).take (if pending then 1 else 0)⟩ := by
  intro pre
  induction pre with
  | nil =>
    intro post pending queue _
    simp [pollGo, hc, entryMsgs, keptEntries]
  | cons e pre ih =>
    intro post pending queue hno
    have hne : e.name ≠ closeName := hno e (by simp)
    have hno' : ∀ x ∈ pre, x.name ≠ closeName := fun x hx => hno x (by simp [hx])
    by_cases hjson : endsWithChars jsonExt e.name = false
    · rw [List.cons_append]
      simp only [pollGo, if_neg hne, if_pos hjson]
      rw [ih post pending queue hno']
      simp [entryMsgs, keptEntries, hne, hjson]
    · rw [Bool.not_eq_false] at hjson
      cases hdata : e.data with
      | some m =>
        cases pending with
        | true =>
          rw [List.cons_append]
          simp only [pollGo, if_neg hne, hjson, hdata, Bool.false_eq_true,
            if_false, if_true]
          rw [ih post false queue hno']
          simp [entryMsgs, keptEntries, hne, hjson, hdata]
        | false =>
          rw [List.cons_append]
          simp only [pollGo, if_neg hne, hjson, hdata, Bool.true_eq_false,
            if_false]
          rw [ih post false (queue ++ [m]) hno']
          simp [entryMsgs, keptEntries, hne, hjson, hdata]
      | none =>
        rw [List.cons_append]
        simp only [pollGo, if_neg hne, hjson, hdata]
        rw [ih post pending queue hno']
        simp [entryMsgs, keptEntries, hne, hjson, hdata]

/-- `shouldClose` detects and deletes the marker (helper, agent-runner
`index.ts` lines 176–187). -/
theorem shouldClose_spec (dir : List InputEntry) :
    ((shouldClose dir).1 = true ↔ ∃ e ∈ dir, e.name = closeName) ∧
    ∀ e ∈ (shouldClose dir).2, e.name ≠ closeName := by
  constructor
  · rw [shouldClose]
    split
    · simp_all [List.any_eq_true]
    · simp_all [List.any_eq_true]
  · intro e he
    rw [shouldClose] at he
    split at he
    · simp only [List.mem_filter, decide_eq_true_eq] at he
      exact he.2
    · rename_i hcond
      simp only [List.any_eq_true, decide_eq_true_eq] at hcond
      simp only at he
      exact fun hEq => hcond ⟨e, he, hEq⟩

/-- C9 — the claim amended per the counterexample.  After the host writes
the `_close` marker, the subprocess's `MessageStream.poll` observes it,
deletes it, and closes the stream: directory entries listed after the
marker are left untouched and unread, everything the observing poll yields
or queues comes from files listed before the marker, a closed stream reads
no further files (`poll` is inert), and the iteration terminates — reports
done — once the messages already read before the marker have been drained
(a message file read in the same poll pass before the marker may still be
yielded after the marker is observed). -/
theorem messageStream_close_ends_stream
    (st : StreamState) (pre post : List InputEntry) (c : InputEntry)
    (hopen : st.closed = false) (hdir : st.dir = pre ++ c :: post)
    (hc : c.name = closeName) (hpre : ∀ e ∈ pre, e.name ≠ closeName) :
    ((streamPoll st).1.closed = true ∧
     (streamPoll st).1.dir = keptEntries pre ++ post ∧
     (streamPoll st).1.queue =
       st.queue ++ (entryMsgs pre).drop (if st.pending then 1 else 0) ∧
     (streamPoll st).2 = (entryMsgs pre).take (if st.pending then 1 else 0)) ∧
    (∀ st' : StreamState, st'.closed = true → streamPoll st' = (st', [])) ∧
    (∀ st' : StreamState, st'.closed = true → st'.queue = [] →
      streamNext st' = (st', .done)) := by
  refine ⟨?_, ?_, ?_⟩
  · rw [streamPoll, if_neg (by simp [hopen]), hdir,
      pollGo_marker c hc pre post st.pending st.queue hpre]
    simp [hopen]
  · intro st' h
    simp [streamPoll, h]
  · intro st' h hq
    simp [streamNext, hq, h]

/-- A concrete follow-up message. -/
def followUpExample : FollowUpMessage :=
  ⟨"u@s.whatsapp.net", "Alice", "hello", "2024-01-01T00:00:00.000Z"⟩

/-- A concrete open stream whose input directory holds one message file and
then the close marker (`"1000-ab.json"` sorts before `"_close"`, as digits
precede `'_'`). -/
def exampleStreamState : StreamState :=
  ⟨false, false, [],
    [⟨"1000-ab.json".data, some followUpExample⟩, ⟨"_close".data, none⟩]⟩

/-- C9 — witness for the amended theorem at the concrete stream state:
the observing poll closes the stream, and the message file read before the
marker ends up queued. -/
theorem messageStream_close_ends_stream_witness :
    (streamPoll exampleStreamState).1.closed = true ∧
    (streamPoll exampleStreamState).1.queue = [followUpExample] := by
  have h := messageStream_close_ends_stream exampleStreamState
    [⟨"1000-ab.json".data, some followUpExample⟩] [] ⟨"_close".data, none⟩
    rfl rfl rfl (by decide)
  refine ⟨h.1.1, ?_⟩
  rw [h.1.2.2.1]
  decide

/-- C9 — counterexample to the claim as stated: with one message file and
then the marker in the same listing, the poll observes the marker and
closes the stream, yet the iterator still yields that follow-up message
afterwards — so "no further follow-up messages are yielded after the marker
is observed" fails on the code. -/
theorem messageStream_yields_after_marker :
    (streamPoll exampleStreamState).1.closed = true ∧
    (streamNext (streamPoll exampleStreamState).1).2 =
      NextResult.msg followUpExample := by decide

/-! ## Cursor rollback

The orchestrator (`src/index.ts`) is generated at setup time and is not
shipped as TypeScript; the rollback rule is fixed by the add-orchestrator
skill ("Cursor rollback: advance `lastProcessed` before processing
(optimistic); roll back on error UNLESS output was already sent") and by
spec §7. -/

/-- Exit classification of one execution (spec §7 failure taxonomy). -/
inductive ExecOutcome where
  | success
  | transportDisconnected
  | timeout
  | crash
deriving DecidableEq

/-- Modelled from the spec: the cursor-rollback rule of the generated
orchestrator `src/index.ts` (missing from the shipped sources).  The cursor
is advanced optimistically to the latest triggering message's timestamp
before the subprocess starts; if the execution fails and zero output blocks
were delivered it is restored to its pre-execution value, otherwise the
optimistic advance stands. -/
def cursorAfterExecution (cursorBefore latestTs : Nat)
    (outcome : ExecOutcome) (deliveredBlocks : Nat) : Nat :=
  match outcome with
  | .success => latestTs
  | _ => if deliveredBlocks = 0 then cursorBefore else latestTs

/-- C5 — the claim's theorem.  For a failed execution
(TransportDisconnected/Timeout/Crash): with zero delivered output blocks the
cursor equals its pre-execution value (rollback); with at least one
delivered block it is not rolled back — it is at least its pre-execution
value and reflects at most the latest triggering message's timestamp. -/
theorem cursor_rollback_rule (cursorBefore latestTs deliveredBlocks : Nat)
    (outcome : ExecOutcome) (hmono : cursorBefore ≤ latestTs)
    (hfail : outcome ≠ .success) :
    (deliveredBlocks = 0 →
      cursorAfterExecution cursorBefore latestTs outcome deliveredBlocks =
        cursorBefore) ∧
    (1 ≤ deliveredBlocks →
      cursorBefore ≤
        cursorAfterExecution cursorBefore latestTs outcome deliveredBlocks ∧
      cursorAfterExecution cursorBefore latestTs outcome deliveredBlocks ≤
        latestTs) := by
  constructor
  · intro h0
    cases outcome <;> simp_all [cursorAfterExecution]
  · intro h1
    have hne : deliveredBlocks ≠ 0 := by omega
    cases outcome <;> simp_all [cursorAfterExecution]

/-- C5 — witness: a crash at cursor 5 with latest message timestamp 9 rolls
back to 5 when nothing was delivered, and keeps a value between 5 and 9
after two delivered blocks. -/
theorem cursor_rollback_rule_witness :
    cursorAfterExecution 5 9 ExecOutcome.crash 0 = 5 ∧
    (5 ≤ cursorAfterExecution 5 9 ExecOutcome.crash 2 ∧
     cursorAfterExecution 5 9 ExecOutcome.crash 2 ≤ 9) :=
  ⟨(cursor_rollback_rule 5 9 0 ExecOutcome.crash (by omega) (by decide)).1 rfl,
   (cursor_rollback_rule 5 9 2 ExecOutcome.crash (by omega) (by decide)).2
     (by omega)⟩

/-! ## Command-bus authorization

The host-side scanner (`src/ipc.ts`) is generated at setup time and is not
shipped as TypeScript; its behavior is fixed by the IPC protocol anchor
("Authorization model": source identity, main-group check, ownership check;
"Rejection handling": move to `errors/` with the reason recorded;
"Read protocol": parse each file, act on it, delete it). -/

/-- The six IPC command types (types-contract `IpcCommand.type`). -/
inductive CmdType where
  | schedule_task
  | pause_task
  | resume_task
  | cancel_task
  | register_group
  | refresh_groups
deriving DecidableEq

/-- An IPC command as the host's scanner sees it for authorization: its
type and the `source_group` it claims. -/
structure ScannedCommand where
  type : CmdType
  sourceGroup : String
deriving DecidableEq

/-- Fate of one scanned command file: acted upon (and then deleted), or
moved to the shared `errors/` quarantine with the given recorded reason. -/
inductive FileFate where
  | acted
  | quarantined (reason : String)
deriving DecidableEq

/-- Modelled from the spec: the authorization decision of the generated
`src/ipc.ts` (missing from the shipped sources; IPC protocol anchor,
"Authorization model").  Step 1: `source_group` must equal the directory
the file was found in.  Step 2: `register_group`/`refresh_groups` require
the main group.  Step 3: task operations require the referenced task
(`taskOwner` = its `group_folder`, `none` when it does not exist) to belong
to the source group, except for the main group, which may target any task. -/
def authorizeCommand (mainGroup dirGroup : String) (cmd : ScannedCommand)
    (taskOwner : Option String) : FileFate :=
  if cmd.sourceGroup ≠ dirGroup then
    .quarantined "source_group mismatch"
  else
    match cmd.type with
    | .register_group | .refresh_groups =>
      if cmd.sourceGroup = mainGroup then .acted
      else .quarantined "main group only"
    | .pause_task | .resume_task | .cancel_task =>
      if cmd.sourceGroup = mainGroup then .acted
      else match taskOwner with
        | some owner =>
          if owner = cmd.sourceGroup then .acted
          else .quarantined "task not owned by source group"
        | none => .quarantined "task not found"
    | .schedule_task => .acted

/-- Modelled from the spec: processing of one file of a group's `tasks/`
directory (IPC protocol anchor, "Read protocol" / "Rejection handling"):
a file that fails to parse is quarantined; otherwise the authorization
decision applies. -/
def processTaskFile (mainGroup dirGroup : String)
    (parsed : Option ScannedCommand) (taskOwner : Option String) : FileFate :=
  match parsed with
  | none => .quarantined "parse failure"
  | some cmd => authorizeCommand mainGroup dirGroup cmd taskOwner

/-- The MCP tools `createMcpServer` registers
(`container/agent-runner/src/mcp-server.ts`): six base tools always, and
`register_group`/`list_groups` only when `isMain` is set. -/
def mcpToolNames (isMain : Bool) : List String :=
  ["send_message", "schedule_task", "list_tasks", "pause_task",
   "resume_task", "cancel_task"] ++
  (if isMain then ["register_group", "list_groups"] else [])

/-- C3 — the claim's theorem.  A scanned command whose `source_group`
differs from the directory it was found in is quarantined (moved to the
errors directory with a recorded rejection reason) and never acted upon,
regardless of its command type and of any task ownership. -/
theorem sourceGroup_mismatch_quarantined (mainGroup dirGroup : String)
    (cmd : ScannedCommand) (taskOwner : Option String)
    (hmm : cmd.sourceGroup ≠ dirGroup) :
    (∃ r, processTaskFile mainGroup dirGroup (some cmd) taskOwner =
      .quarantined r) ∧
    processTaskFile mainGroup dirGroup (some cmd) taskOwner ≠ .acted := by
  refine ⟨⟨"source_group mismatch", ?_⟩, ?_⟩ <;>
    simp [processTaskFile, authorizeCommand, hmm]

/-- C3 — witness: a `cancel_task` found in `groupA`'s directory but
claiming `source_group = "groupB"` is quarantined, not acted upon, even
though the referenced task belongs to `groupB`. -/
theorem sourceGroup_mismatch_quarantined_witness :
    (∃ r, processTaskFile "main" "groupA"
      (some ⟨CmdType.cancel_task, "groupB"⟩) (some "groupB") =
        FileFate.quarantined r) ∧
    processTaskFile "main" "groupA"
      (some ⟨CmdType.cancel_task, "groupB"⟩) (some "groupB") ≠
        FileFate.acted :=
  sourceGroup_mismatch_quarantined "main" "groupA"
    ⟨CmdType.cancel_task, "groupB"⟩ (some "groupB") (by decide)

/-- C4 — the claim's theorem.  `register_group` and `refresh_groups` are
acted on only when `source_group` equals the administrative (main) group's
folder: issued with any non-administrative `source_group` they are always
quarantined and never acted upon; conversely, an acted-upon
`register_group`/`refresh_groups` must carry the main group's folder.
Moreover, in the shipped agent-runner a non-main container's MCP server
does not even expose the `register_group` tool. -/
theorem admin_commands_main_only (mainGroup dirGroup : String)
    (cmd : ScannedCommand) (taskOwner : Option String)
    (htype : cmd.type = .register_group ∨ cmd.type = .refresh_groups) :
    (cmd.sourceGroup ≠ mainGroup →
      (∃ r, processTaskFile mainGroup dirGroup (some cmd) taskOwner =
        .quarantined r) ∧
      processTaskFile mainGroup dirGroup (some cmd) taskOwner ≠ .acted) ∧
    (processTaskFile mainGroup dirGroup (some cmd) taskOwner = .acted →
      cmd.sourceGroup = mainGroup) ∧
    "register_group" ∉ mcpToolNames false := by
  refine ⟨?_, ?_, by decide⟩
  · intro hnm
    by_cases hmm : cmd.sourceGroup = dirGroup
    · have hdm : ¬ dirGroup = mainGroup := fun hc => hnm (by rw [hmm, hc])
      rcases htype with h | h <;>
        refine ⟨⟨"main group only", ?_⟩, ?_⟩ <;>
          simp [processTaskFile, authorizeCommand, hmm, h, hnm, hdm]
    · rcases htype with h | h <;>
        refine ⟨⟨"source_group mismatch", ?_⟩, ?_⟩ <;>
          simp [processTaskFile, authorizeCommand, hmm, h, hnm]
  · intro hact
    by_contra hnm
    by_cases hmm : cmd.sourceGroup = dirGroup
    · have hdm : ¬ dirGroup = mainGroup := fun hc => hnm (by rw [hmm, hc])
      rcases htype with h | h <;>
        simp [processTaskFile, authorizeCommand, hmm, h, hnm, hdm] at hact
    · rcases htype with h | h <;>
        simp [processTaskFile, authorizeCommand, hmm, h, hnm] at hact

/-- C4 — witness: a `register_group` claiming `source_group = "ops"` (found
even in its own directory `ops`) is quarantined when the main group is
`"main"`, and the non-main MCP server lacks the tool. -/
theorem admin_commands_main_only_witness :
    ((∃ r, processTaskFile "main" "ops"
        (some ⟨CmdType.register_group, "ops"⟩) none = FileFate.quarantined r) ∧
      processTaskFile "main" "ops"
        (some ⟨CmdType.register_group, "ops"⟩) none ≠ FileFate.acted) ∧
    "register_group" ∉ mcpToolNames false :=
  ⟨(admin_commands_main_only "main" "ops" ⟨CmdType.register_group, "ops"⟩
      none (Or.inl rfl)).1 (by decide),
   (admin_commands_main_only "main" "ops" ⟨CmdType.register_group, "ops"⟩
      none (Or.inl rfl)).2.2⟩

/-! ## Execution queue

`src/group-queue.ts` (per-group FIFO + global concurrency limiter) is
generated at setup time and is not shipped as TypeScript; its state is
fixed by the anchor contract (`GroupState`: `processing : boolean`,
`pending : QueuedTask[]`), its algorithm by spec §4.2, and its limit by the
architecture doc ("per-group serialization via group queue, global limit of
5 concurrent containers"). -/

/-- Modelled from the spec: the per-group slice of the generated
`src/group-queue.ts` state (anchor `GroupState`: the `processing` flag and
the `pending` FIFO of queued work items, identified here by `Nat` ids),
extended with the ghost history of submitted, started and finished item ids
used only to state the ordering invariants. -/
structure GroupRec where
  folder : String
  processing : Bool
  pending : List Nat
  submitted : List Nat
  started : List Nat
  finished : List Nat
deriving DecidableEq

/-- The number of groups currently running an execution — the queue's
global running counter. -/
def countActive (s : List GroupRec) : Nat :=
  (s.filter (fun g => g.processing)).length

/-- Modelled from the spec: the transitions of the generated
`src/group-queue.ts` (missing from the shipped sources; spec §4.2).
`register` creates a fresh per-group FIFO; `submit` appends a work item to
its group's FIFO; `start` admits the FIFO head when the group is not
already running and the global counter is below `K`, marking the group
running; `finish` completes the running head (success or failure alike),
pops it and frees the slot.  Which eligible group `start` picks next is
deliberately nondeterministic — the spec leaves the fairness policy open. -/
inductive QueueStep (K : Nat) : List GroupRec → List GroupRec → Prop
  | register (s : List GroupRec) (f : String)
      (hfresh : f ∉ s.map (fun g => g.folder)) :
      QueueStep K s (s ++ [⟨f, false, [], [], [], []⟩])
  | submit (pre post : List GroupRec) (g : GroupRec) (i : Nat) :
      QueueStep K (pre ++ g :: post)
        (pre ++ { g with pending := g.pending ++ [i],
                         submitted := g.submitted ++ [i] } :: post)
  | start (pre post : List GroupRec) (g : GroupRec) (i : Nat) (rest : List Nat)
      (hpend : g.pending = i :: rest) (hidle : g.processing = false)
      (hcap : countActive (pre ++ g :: post) < K) :
      QueueStep K (pre ++ g :: post)
        (pre ++ { g with processing := true,
                         started := g.started ++ [i] } :: post)
  | finish (pre post : List GroupRec) (g : GroupRec) (i : Nat) (rest : List Nat)
      (hpend : g.pending = i :: rest) (hrun : g.processing = true) :
      QueueStep K (pre ++ g :: post)
        (pre ++ { g with processing := false, pending := rest,
                         finished := g.finished ++ [i] } :: post)

/-- The queue states reachable from the empty initial state. -/
inductive QueueReachable (K : Nat) : List GroupRec → Prop
  | init : QueueReachable K []
  | step (s s' : List GroupRec) (h : QueueReachable K s)
      (hs : QueueStep K s s') : QueueReachable K s'

/-- Modelled from the spec: the default global concurrency limit
(spec §4.2: "a fixed limit K (default 5)"). -/
def MAX_CONCURRENT : Nat := 5

/-- The per-group invariant: the ghost histories are consistent with the
FIFO and the `processing` flag — what has finished plus what is pending is
exactly what was submitted, and the started log is the finished log plus
the currently running head when the group is busy. -/
def GroupInv (g : GroupRec) : Prop :=
  g.finished ++ g.pending = g.submitted ∧
  (g.processing = true →
    ∃ i rest, g.pending = i :: rest ∧ g.started = g.finished ++ [i]) ∧
  (g.processing = false → g.started = g.finished)

/-- The whole-queue invariant: group folders are unique and every group
record satisfies its invariant. -/
def QueueInv (s : List GroupRec) : Prop :=
  (s.map (fun g => g.folder)).Nodup ∧ ∀ g ∈ s, GroupInv g

/-- Splitting the running counter around one record. -/
theorem countActive_append_cons (pre post : List GroupRec) (g : GroupRec) :
    countActive (pre ++ g :: post) =
      countActive pre + (if g.processing then 1 else 0) + countActive post := by
  simp only [countActive, List.filter_append, List.length_append,
    List.filter_cons]
  split <;> simp <;> omega

/-- Membership in an updated context: an element of `pre ++ g' :: post` is
`g'` or an element of `pre ++ g :: post`. -/
theorem mem_update_context (pre post : List GroupRec) (g g' x : GroupRec)
    (hx : x ∈ pre ++ g' :: post) : x = g' ∨ x ∈ pre ++ g :: post := by
  rcases List.mem_append.mp hx with h | h
  · exact Or.inr (List.mem_append.mpr (Or.inl h))
  · rcases List.mem_cons.mp h with h | h
    · exact Or.inl h
    · exact Or.inr (List.mem_append.mpr (Or.inr (List.mem_cons_of_mem _ h)))

/-- Every reachable queue state satisfies the queue invariant. -/
theorem queueInv_of_reachable (K : Nat) (s : List GroupRec)
    (h : QueueReachable K s) : QueueInv s := by
  induction h with
  | init => exact ⟨List.nodup_nil, by simp⟩
  | step s s' _ hs ih =>
    obtain ⟨hnodup, hinv⟩ := ih
    cases hs with
    | register s f hfresh =>
      constructor
      · simp only [List.map_append, List.map_cons, List.map_nil]
        exact List.Nodup.append hnodup (List.nodup_singleton _)
          (by simpa [List.disjoint_right] using hfresh)
      · intro g hg
        rcases List.mem_append.mp hg with hmem | hmem
        · exact hinv g hmem
        · simp only [List.mem_singleton] at hmem
          subst hmem
          exact ⟨rfl, by simp, by simp⟩
    | submit pre post g i =>
      constructor
      · simpa using hnodup
      · intro x hx
        rcases mem_update_context pre post g _ x hx with hx' | hx'
        · subst hx'
          obtain ⟨hsub, hproc, hidle⟩ := hinv g (by simp)
          refine ⟨by simp [← hsub], ?_, ?_⟩
          · intro hp
            obtain ⟨j, rest, hpend, hst⟩ := hproc hp
            exact ⟨j, rest ++ [i], by simp [hpend], hst⟩
          · intro hp
            exact hidle hp
        · exact hinv x hx'
    | start pre post g i rest hpend hidle hcap =>
      constructor
      · simpa using hnodup
      · intro x hx
        rcases mem_update_context pre post g _ x hx with hx' | hx'
        · subst hx'
          obtain ⟨hsub, _, hidle'⟩ := hinv g (by simp)
          refine ⟨hsub, ?_, by simp⟩
          intro _
          exact ⟨i, rest, hpend, by rw [hidle' hidle]⟩
        · exact hinv x hx'
    | finish pre post g i rest hpend hrun =>
      constructor
      · simpa using hnodup
      · intro x hx
        rcases mem_update_context pre post g _ x hx with hx' | hx'
        · subst hx'
          obtain ⟨hsub, hproc, _⟩ := hinv g (by simp)
          obtain ⟨j, rest', hpend', hst⟩ := hproc hrun
          rw [hpend] at hpend'
          cases hpend'
          refine ⟨by rw [← hsub, hpend]; simp, by simp, ?_⟩
          intro _
          simpa using hst
        · exact hinv x hx'

/-- The running counter never exceeds `K` in any reachable state. -/
theorem countActive_le_of_reachable (K : Nat) (s : List GroupRec)
    (h : QueueReachable K s) : countActive s ≤ K := by
  induction h with
  | init => simp [countActive]
  | step s s' _ hs ih =>
    cases hs with
    | register s f hfresh =>
      simpa [countActive, List.filter_append] using ih
    | submit pre post g i =>
      rw [countActive_append_cons] at ih ⊢
      simpa using ih
    | start pre post g i rest hpend hidle hcap =>
      rw [countActive_append_cons] at hcap ⊢
      simp [hidle] at hcap ⊢
      omega
    | finish pre post g i rest hpend hrun =>
      rw [countActive_append_cons] at ih ⊢
      simp [hrun] at ih ⊢
      omega

/-- C1 — the claim's theorem.  In every reachable queue state, group
folders are unique and, for each group record: the sequence of started
items is a prefix of the sequence of submitted items (work items execute
strictly in submission order), at most one started item is unfinished (at
most one execution is active for the group at any instant), and an idle
group has no unfinished started item (executions never overlap — a new
`start` requires `processing = false`, i.e. the previous item finished). -/
theorem per_group_serialization (K : Nat) (s : List GroupRec)
    (h : QueueReachable K s) :
    (s.map (fun g => g.folder)).Nodup ∧
    ∀ g ∈ s, (∃ t, g.started ++ t = g.submitted) ∧
      g.started.length ≤ g.finished.length + 1 ∧
      (g.processing = false → g.started = g.finished) := by
  obtain ⟨hnodup, hinv⟩ := queueInv_of_reachable K s h
  refine ⟨hnodup, fun g hg => ?_⟩
  obtain ⟨hsub, hproc, hidle⟩ := hinv g hg
  cases hp : g.processing with
  | false =>
    have hst := hidle hp
    exact ⟨⟨g.pending, by rw [hst, hsub]⟩, by rw [hst]; omega,
      fun _ => hst⟩
  | true =>
    obtain ⟨i, rest, hpend, hst⟩ := hproc hp
    refine ⟨⟨rest, ?_⟩, by simp [hst], by simp [hp]⟩
    rw [hst, ← hsub, hpend]
    simp

/-- C2 — the claim's theorem.  In every state reachable under limit `K`,
the number of simultaneously running container executions across all groups
is at most `K`; the configured default limit is 5. -/
theorem global_concurrency_bounded (K : Nat) (s : List GroupRec)
    (h : QueueReachable K s) :
    countActive s ≤ K ∧ MAX_CONCURRENT = 5 :=
  ⟨countActive_le_of_reachable K s h, rfl⟩

/-- A queue trace: register the group `main`, submit item 7, start it.
The resulting state is reachable under the default limit. -/
def exampleQueueState : List GroupRec :=
  [⟨"main", true, [7], [7], [7], []⟩]

/-- The example state is reachable (register → submit → start). -/
theorem exampleQueueState_reachable :
    QueueReachable MAX_CONCURRENT exampleQueueState := by
  have hstep1 : QueueStep MAX_CONCURRENT []
      [(⟨"main", false, [], [], [], []⟩ : GroupRec)] :=
    QueueStep.register [] "main" (by simp)
  have hstep2 : QueueStep MAX_CONCURRENT
      [(⟨"main", false, [], [], [], []⟩ : GroupRec)]
      [(⟨"main", false, [7], [7], [], []⟩ : GroupRec)] :=
    QueueStep.submit [] [] ⟨"main", false, [], [], [], []⟩ 7
  have hstep3 : QueueStep MAX_CONCURRENT
      [(⟨"main", false, [7], [7], [], []⟩ : GroupRec)]
      [(⟨"main", true, [7], [7], [7], []⟩ : GroupRec)] :=
    QueueStep.start [] [] ⟨"main", false, [7], [7], [], []⟩ 7 [] rfl rfl
      (by decide)
  exact .step _ _ (.step _ _ (.step _ _ .init hstep1) hstep2) hstep3

/-- C1 — witness: the invariants at the concrete reachable state. -/
theorem per_group_serialization_witness :
    (exampleQueueState.map (fun g => g.folder)).Nodup ∧
    ∀ g ∈ exampleQueueState, (∃ t, g.started ++ t = g.submitted) ∧
      g.started.length ≤ g.finished.length + 1 ∧
      (g.processing = false → g.started = g.finished) :=
  per_group_serialization MAX_CONCURRENT exampleQueueState
    exampleQueueState_reachable

/-- C2 — witness: the counter bound at the concrete reachable state. -/
theorem global_concurrency_bounded_witness :
    countActive exampleQueueState ≤ MAX_CONCURRENT ∧ MAX_CONCURRENT = 5 :=
  global_concurrency_bounded MAX_CONCURRENT exampleQueueState
    exampleQueueState_reachable

/-! ## Agent-runner secret loading and SDK environment
(`container/agent-runner/src/index.ts`, step 2 of `main`, lines 197–216,
and `security-hooks.ts`)

`main` reads the secrets from the `ContainerInput` document, falls back to
the mounted `/secrets.json` when the document carries none, and merges the
truthy entries into a clone `{ ...process.env }`; the clone is handed to
the SDK through the per-query `env` option.  The source performs no
assignment to `process.env`. -/

/-- An environment: a partial map from variable names to values. -/
def EnvMap := String → Option String

/-- One assignment `env[k] = v` into an environment clone. -/
def setVar (env : EnvMap) (k v : String) : EnvMap :=
  fun k' => if k' = k then some v else env k'

/-- The fallback logic of `main` step 2: keep `input.secrets` when it has
entries; otherwise use the parsed contents of `/secrets.json` when that
file exists and parses (`secretsFile = some …`), else keep the empty
`input.secrets`. -/
def effectiveSecrets (inputSecrets : List (String × String))
    (secretsFile : Option (List (String × String))) : List (String × String) :=
  if inputSecrets.isEmpty then
    match secretsFile with
    | some fileSecrets => fileSecrets
    | none => inputSecrets
  else inputSecrets

/-- The construction `const sdkEnv = { ...process.env }` followed by the
loop `for ([key, value] of Object.entries(secrets)) if (value)
sdkEnv[key] = value` — truthy secret values override the clone. -/
def buildSdkEnv (procEnv : EnvMap) (secrets : List (String × String)) : EnvMap :=
  secrets.foldl
    (fun env kv => if kv.2 ≠ "" then setVar env kv.1 kv.2 else env) procEnv

/-- The environment-relevant effect of `main`'s secret-loading step:
the process environment afterwards and the SDK environment.  The source
contains no assignment to `process.env`, so the process environment
component is the one received. -/
def mainEnvSetup (procEnv : EnvMap) (inputSecrets : List (String × String))
    (secretsFile : Option (List (String × String))) : EnvMap × EnvMap :=
  (procEnv, buildSdkEnv procEnv (effectiveSecrets inputSecrets secretsFile))

/-- The secret variables stripped from bash subprocesses
(`security-hooks.ts`, `SECRET_ENV_VARS`). -/
def SECRET_ENV_VARS : List String := ["ANTHROPIC_API_KEY", "CLAUDE_CODE_OAUTH_TOKEN"]

/-- The command rewrite of `createSanitizeBashHook` (`security-hooks.ts`):
prepend `unset <secret vars> 2>/dev/null; ` to every nonempty bash
command; an absent/empty command is left as is (the hook returns `{}`). -/
def sanitizeBashCommand (command : String) : String :=
  if command = "" then command
  else "unset " ++ String.intercalate " " SECRET_ENV_VARS ++ " 2>/dev/null; " ++
    command

/-- Keys not named in the secret list do not change in the clone. -/
theorem buildSdkEnv_falsy (k : String) :
    ∀ (secrets : List (String × String)) (procEnv : EnvMap),
      (∀ v, (k, v) ∈ secrets → v = "") →
      buildSdkEnv procEnv secrets k = procEnv k := by
  intro secrets
  induction secrets with
  | nil => intro procEnv _; rfl
  | cons kv t ih =>
    intro procEnv hk
    rw [buildSdkEnv, List.foldl_cons]
    rw [show (List.foldl
        (fun env kv => if kv.2 ≠ "" then setVar env kv.1 kv.2 else env)
        (if kv.2 ≠ "" then setVar procEnv kv.1 kv.2 else procEnv) t) =
      buildSdkEnv (if kv.2 ≠ "" then setVar procEnv kv.1 kv.2 else procEnv) t
      from rfl]
    rw [ih _ (fun v hv => hk v (List.mem_cons_of_mem _ hv))]
    by_cases hv : kv.2 = ""
    · simp [hv]
    · simp only [hv, ne_eq, not_false_iff, if_true, setVar]
      split
      · rename_i hkk
        exfalso
        exact hv (hk kv.2 (by rw [hkk]; simp))
      · rfl

/-- A key absent from the secret list does not change in the clone. -/
theorem buildSdkEnv_absent (k : String) :
    ∀ (secrets : List (String × String)) (procEnv : EnvMap),
      k ∉ secrets.map Prod.fst →
      buildSdkEnv procEnv secrets k = procEnv k := by
  intro secrets procEnv hk
  refine buildSdkEnv_falsy k secrets procEnv (fun v hv => ?_)
  exfalso
  exact hk (List.mem_map.mpr ⟨(k, v), hv, rfl⟩)

/-- A truthy secret ends up in the clone (keys unique, as in a JS record). -/
theorem buildSdkEnv_mem (k v : String) :
    ∀ (secrets : List (String × String)) (procEnv : EnvMap),
      (secrets.map Prod.fst).Nodup → (k, v) ∈ secrets → v ≠ "" →
      buildSdkEnv procEnv secrets k = some v := by
  intro secrets
  induction secrets with
  | nil => intro procEnv _ hmem; simp at hmem
  | cons kv t ih =>
    intro procEnv hnd hmem hv
    rw [buildSdkEnv, List.foldl_cons]
    rw [show (List.foldl
        (fun env kv => if kv.2 ≠ "" then setVar env kv.1 kv.2 else env)
        (if kv.2 ≠ "" then setVar procEnv kv.1 kv.2 else procEnv) t) =
      buildSdkEnv (if kv.2 ≠ "" then setVar procEnv kv.1 kv.2 else procEnv) t
      from rfl]
    rcases List.mem_cons.mp hmem with heq | hmem'
    · subst heq
      simp only [List.map_cons, List.nodup_cons] at hnd
      rw [buildSdkEnv_absent k t _ (by simpa using hnd.1)]
      simp [hv, setVar]
    · simp only [List.map_cons, List.nodup_cons] at hnd
      exact ih _ hnd.2 hmem' hv

/-- C8 — the claim's theorem.  Loading secrets in the agent-runner leaves
`process.env` unchanged; the secrets — from the `ContainerInput` document
or, when it carries none, from the single mounted `/secrets.json` fallback
file — are merged only into the `sdkEnv` clone handed to the SDK via the
per-query `env` option: every truthy secret appears in the clone, every
other variable reads through to the ambient environment; and every
nonempty bash command the agent runs is first rewritten to unset the
secret variables. -/
theorem sdkEnv_secret_isolation (procEnv : EnvMap)
    (inputSecrets : List (String × String))
    (secretsFile : Option (List (String × String)))
    (hnd : ((effectiveSecrets inputSecrets secretsFile).map Prod.fst).Nodup) :
    (mainEnvSetup procEnv inputSecrets secretsFile).1 = procEnv ∧
    (∀ k v, (k, v) ∈ effectiveSecrets inputSecrets secretsFile → v ≠ "" →
      (mainEnvSetup procEnv inputSecrets secretsFile).2 k = some v) ∧
    (∀ k, (∀ v, (k, v) ∈ effectiveSecrets inputSecrets secretsFile → v = "") →
      (mainEnvSetup procEnv inputSecrets secretsFile).2 k = procEnv k) ∧
    (∀ c : String, c ≠ "" → sanitizeBashCommand c =
      "unset ANTHROPIC_API_KEY CLAUDE_CODE_OAUTH_TOKEN 2>/dev/null; " ++ c) := by
  refine ⟨rfl, ?_, ?_, ?_⟩
  · intro k v hmem hv
    exact buildSdkEnv_mem k v _ procEnv hnd hmem hv
  · intro k hk
    exact buildSdkEnv_falsy k _ procEnv hk
  · intro c hc
    rw [sanitizeBashCommand, if_neg hc]
    rw [show ("unset " ++ String.intercalate " " SECRET_ENV_VARS ++
      " 2>/dev/null; ") =
      "unset ANTHROPIC_API_KEY CLAUDE_CODE_OAUTH_TOKEN 2>/dev/null; "
      from by decide]

/-- A concrete ambient environment of the subprocess. -/
def exampleProcEnv : EnvMap :=
  fun k => if k = "PATH" then some "/usr/bin" else none

/-- C8 — witness: with the document carrying one API key, the process
environment is untouched, the key reaches only the SDK clone, and another
variable reads through unchanged. -/
theorem sdkEnv_secret_isolation_witness :
    (mainEnvSetup exampleProcEnv [("ANTHROPIC_API_KEY", "sk-test")] none).1 =
      exampleProcEnv ∧
    (mainEnvSetup exampleProcEnv [("ANTHROPIC_API_KEY", "sk-test")] none).2
      "ANTHROPIC_API_KEY" = some "sk-test" ∧
    (mainEnvSetup exampleProcEnv [("ANTHROPIC_API_KEY", "sk-test")] none).2
      "PATH" = exampleProcEnv "PATH" := by
  have h := sdkEnv_secret_isolation exampleProcEnv
    [("ANTHROPIC_API_KEY", "sk-test")] none (by decide)
  refine ⟨h.1, ?_, ?_⟩
  · exact h.2.1 "ANTHROPIC_API_KEY" "sk-test" (by decide) (by decide)
  · refine h.2.2.1 "PATH" (fun v hv => ?_)
    rw [show effectiveSecrets [("ANTHROPIC_API_KEY", "sk-test")] none =
      [("ANTHROPIC_API_KEY", "sk-test")] from rfl] at hv
    simp only [List.mem_singleton, Prod.mk.injEq] at hv
    exact absurd hv.1 (by decide)

/-! ## JSON documents: `JSON.stringify(·, null, 2)` and `JSON.parse`

`writeIpcCommand` (`container/agent-runner/src/ipc-writer.ts`) persists a
command with `JSON.stringify(command, null, 2)`, and the host's scanner
reads it back with `JSON.parse`.  Both are JavaScript runtime builtins;
they are modelled here as executable functions.  JavaScript numbers are
modelled as integers (the commands this program writes carry only string
payload values; float formatting is out of scope, and inputs with
fraction/exponent parts fail to parse in the model).  JavaScript strings
are UTF-16; lone surrogates are not representable in `Char` and are out of
scope (a `\uXXXX` escape in the surrogate range decodes through
`Char.ofNat`'s fallback). -/

mutual

/-- A JSON value. -/
inductive Json where
  | null
  | bool (b : Bool)
  | num (n : Int)
  | str (s : List Char)
  | arr (xs : JsonArr)
  | obj (fields : JsonObj)

/-- The elements of a JSON array. -/
inductive JsonArr where
  | nil
  | cons (hd : Json) (tl : JsonArr)

/-- The key–value members of a JSON object, in insertion order. -/
inductive JsonObj where
  | nil
  | cons (key : List Char) (val : Json) (tl : JsonObj)

end

/-- Lowercase hexadecimal digit (`d < 16`). -/
def hexDigitCh (d : Nat) : Char :=
  if d < 10 then digitCh d else Char.ofNat ('a'.toNat + (d - 10))

/-- `JSON.stringify`'s escape of one character (ECMA-262
`QuoteJSONString`): two-character escapes for quote, backslash and the
control characters with short forms, `\u00XX` for the other control
characters, everything else unescaped. -/
def escapeJsonChar (c : Char) : List Char :=
  if c = '"' then ['\\', '"']
  else if c = '\\' then ['\\', '\\']
  else if c = '\x08' then ['\\', 'b']
  else if c = '\x09' then ['\\', 't']
  else if c = '\x0a' then ['\\', 'n']
  else if c = '\x0c' then ['\\', 'f']
  else if c = '\x0d' then ['\\', 'r']
  else if c.toNat < 0x20 then
    ['\\', 'u', '0', '0', hexDigitCh (c.toNat / 16), hexDigitCh (c.toNat % 16)]
  else [c]

/-- The escaped body of a JSON string. -/
def escapeJsonString : List Char → List Char
  | [] => []
  | c :: t => escapeJsonChar c ++ escapeJsonString t

/-- A quoted JSON string: `"` + escaped body + `"`. -/
def quoteJson (s : List Char) : List Char :=
  '"' :: escapeJsonString s ++ ['"']

/-- JavaScript number-to-string on integers: optional minus sign and the
decimal digits. -/
def intToChars (i : Int) : List Char :=
  if i < 0 then '-' :: natToChars i.natAbs else natToChars i.toNat

/-- The indentation at nesting depth `l` produced by
`JSON.stringify(·, null, 2)` (gap of two spaces per depth). -/
def jsonIndent (l : Nat) : List Char := List.replicate (2 * l) ' '

mutual

/-- `JSON.stringify(v, null, 2)` at nesting depth `l`: `null`/booleans/
numbers verbatim, strings quoted and escaped, empty containers as
`[]`/`\x7b\x7d`, nonempty containers opened, each element on its own line at
depth `l+1` (object members as `"key": value`), and closed on a fresh line
at depth `l`. -/
def stringifyAt : Json → Nat → List Char
  | .null, _ => ['n', 'u', 'l', 'l']
  | .bool true, _ => ['t', 'r', 'u', 'e']
  | .bool false, _ => ['f', 'a', 'l', 's', 'e']
  | .num n, _ => intToChars n
  | .str s, _ => quoteJson s
  | .arr .nil, _ => ['[', ']']
  | .arr (.cons x t), l =>
    '[' :: '\n' :: (jsonIndent (l + 1) ++ stringifyAt x (l + 1) ++
      stringifyArrTail t (l + 1) ++ '\n' :: jsonIndent l ++ [']'])
  | .obj .nil, _ => ['\x7b', '\x7d']
  | .obj (.cons k v t), l =>
    '\x7b' :: '\n' :: (jsonIndent (l + 1) ++ quoteJson k ++ ':' :: ' ' ::
      stringifyAt v (l + 1) ++ stringifyObjTail t (l + 1) ++
      '\n' :: jsonIndent l ++ ['\x7d'])

/-- The `,\n<indent><element>` continuation of a nonempty array. -/
def stringifyArrTail : JsonArr → Nat → List Char
  | .nil, _ => []
  | .cons x t, l =>
    ',' :: '\n' :: (jsonIndent l ++ stringifyAt x l ++ stringifyArrTail t l)

/-- The `,\n<indent>"key": value` continuation of a nonempty object. -/
def stringifyObjTail : JsonObj → Nat → List Char
  | .nil, _ => []
  | .cons k v t, l =>
    ',' :: '\n' :: (jsonIndent l ++ quoteJson k ++ ':' :: ' ' ::
      stringifyAt v l ++ stringifyObjTail t l)

end

/-- `JSON.stringify(v, null, 2)`. -/
def stringifyJson (v : Json) : List Char := stringifyAt v 0

/-- JSON grammar whitespace: space, tab, line feed, carriage return. -/
def isJsonWs (c : Char) : Bool :=
  c = ' ' || c = '\t' || c = '\n' || c = '\r'

/-- Skip JSON whitespace. -/
def skipWs (s : List Char) : List Char := s.dropWhile isJsonWs

/-- Value of one hexadecimal digit, computed on the code point (48–57 are
the decimal digits, 97–102 the lowercase and 65–70 the uppercase letters
a–f). -/
def hexVal (c : Char) : Option Nat :=
  let n := c.toNat
  if 48 ≤ n ∧ n ≤ 57 then some (n - 48)
  else if 97 ≤ n ∧ n ≤ 102 then some (n - 87)
  else if 65 ≤ n ∧ n ≤ 70 then some (n - 55)
  else none

/-- The single-character escapes of JSON strings. -/
def decodeEscape (e : Char) : Option Char :=
  if e = '"' then some '"'
  else if e = '\\' then some '\\'
  else if e = '/' then some '/'
  else if e = 'b' then some '\x08'
  else if e = 'f' then some '\x0c'
  else if e = 'n' then some '\x0a'
  else if e = 'r' then some '\x0d'
  else if e = 't' then some '\x09'
  else none

/-- The body of a JSON string after the opening quote: characters and
escapes up to the closing quote; returns the decoded characters and the
input after the closing quote. -/
def parseStringBody : List Char → Option (List Char × List Char)
  | [] => none
  | c :: rest =>
    if c = '"' then some ([], rest)
    else if c = '\\' then
      match rest with
      | 'u' :: h1 :: h2 :: h3 :: h4 :: rest2 =>
        match hexVal h1, hexVal h2, hexVal h3, hexVal h4 with
        | some v1, some v2, some v3, some v4 =>
          (parseStringBody rest2).map (fun p =>
            (Char.ofNat (((v1 * 16 + v2) * 16 + v3) * 16 + v4) :: p.1, p.2))
        | _, _, _, _ => none
      | e :: rest2 =>
        match decodeEscape e with
        | some c2 => (parseStringBody rest2).map (fun p => (c2 :: p.1, p.2))
        | none => none
      | [] => none
    else (parseStringBody rest).map (fun p => (c :: p.1, p.2))

/-- The integer production of the JSON number grammar: an optional minus
sign and a nonempty digit run. -/
def parseJsonNumber (s : List Char) : Option (Json × List Char) :=
  match s with
  | '-' :: rest =>
    let ds := rest.takeWhile isDigitCh
    if ds.isEmpty then none
    else some (.num (-(digitsVal ds : Int)), rest.dropWhile isDigitCh)
  | _ =>
    let ds := s.takeWhile isDigitCh
    if ds.isEmpty then none
    else some (.num (digitsVal ds), s.dropWhile isDigitCh)

mutual

/-- One JSON value: skip whitespace, dispatch on the first character
(keywords, string, array, object, otherwise number), consuming exactly the
value.  `fuel` only bounds the nesting the parser will enter; `JSON.parse`
itself has no such bound, and the top-level wrapper supplies fuel larger
than the input, which the round-trip theorem shows is always enough. -/
def parseVal : Nat → List Char → Option (Json × List Char)
  | 0, _ => none
  | fuel + 1, s =>
    match skipWs s with
    | [] => none
    | c :: rest =>
      if c = 'n' then
        match rest with
        | 'u' :: 'l' :: 'l' :: rest2 => some (.null, rest2)
        | _ => none
      else if c = 't' then
        match rest with
        | 'r' :: 'u' :: 'e' :: rest2 => some (.bool true, rest2)
        | _ => none
      else if c = 'f' then
        match rest with
        | 'a' :: 'l' :: 's' :: 'e' :: rest2 => some (.bool false, rest2)
        | _ => none
      else if c = '"' then
        (parseStringBody rest).map (fun p => (.str p.1, p.2))
      else if c = '[' then
        (parseArrItems fuel (skipWs rest)).map (fun p => (.arr p.1, p.2))
      else if c = '\x7b' then
        (parseObjMembers fuel (skipWs rest)).map (fun p => (.obj p.1, p.2))
      else parseJsonNumber (c :: rest)

/-- Array elements after `[` (whitespace already skipped): `]` closes,
otherwise a value followed by `,` and further elements or by `]`. -/
def parseArrItems : Nat → List Char → Option (JsonArr × List Char)
  | 0, _ => none
  | fuel + 1, s =>
    match s with
    | [] => none
    | c :: rest =>
      if c = ']' then some (.nil, rest)
      else
        match parseVal fuel (c :: rest) with
        | none => none
        | some (x, r) =>
          match skipWs r with
          | [] => none
          | c2 :: r2 =>
            if c2 = ',' then
              (parseArrItems fuel (skipWs r2)).map (fun p => (.cons x p.1, p.2))
            else if c2 = ']' then some (.cons x .nil, r2)
            else none

/-- Object members after `\x7b` (whitespace already skipped): `\x7d` closes,
otherwise `"key"`, `:`, a value, and `,` with further members or `\x7d`. -/
def parseObjMembers : Nat → List Char → Option (JsonObj × List Char)
  | 0, _ => none
  | fuel + 1, s =>
    match s with
    | [] => none
    | c :: rest =>
      if c = '\x7d' then some (.nil, rest)
      else if c = '"' then
        match parseStringBody rest with
        | none => none
        | some (k, r) =>
          match skipWs r with
          | [] => none
          | c2 :: r2 =>
            if c2 = ':' then
              match parseVal fuel (skipWs r2) with
              | none => none
              | some (v, r3) =>
                match skipWs r3 with
                | [] => none
                | c3 :: r4 =>
                  if c3 = ',' then
                    (parseObjMembers fuel (skipWs r4)).map
                      (fun p => (.cons k v p.1, p.2))
                  else if c3 = '\x7d' then some (.cons k v .nil, r4)
                  else none
            else none
      else none

end

/-- `JSON.parse`: parse one value with ample fuel and require only
whitespace to remain. -/
def parseJson (s : List Char) : Option Json :=
  match parseVal (s.length + 1) s with
  | some (v, rest) => if skipWs rest = [] then some v else none
  | none => none

mutual

/-- Node-count measure of a JSON value (for fuel sufficiency). -/
def sizeJ : Json → Nat
  | .null | .bool _ | .num _ | .str _ => 1
  | .arr xs => 1 + sizeA xs
  | .obj fs => 1 + sizeO fs

/-- Node-count measure of array elements. -/
def sizeA : JsonArr → Nat
  | .nil => 1
  | .cons x t => 1 + sizeJ x + sizeA t

/-- Node-count measure of object members. -/
def sizeO : JsonObj → Nat
  | .nil => 1
  | .cons _ v t => 1 + sizeJ v + sizeO t

end

/-! ## The IPC command writer (`container/agent-runner/src/ipc-writer.ts`) -/

/-- An `IpcCommand` (ipc-writer.ts): the command type, the payload record
(a JSON object) and the claimed source group. -/
structure IpcCommand where
  type : List Char
  payload : JsonObj
  source_group : List Char

/-- The JSON document `JSON.stringify(command, null, 2)` serializes: the
three fields, in declaration order. -/
def IpcCommand.toJson (c : IpcCommand) : Json :=
  .obj (.cons "type".data (.str c.type)
    (.cons "payload".data (.obj c.payload)
      (.cons "source_group".data (.str c.source_group) .nil)))

/-- Reading an `IpcCommand` back from its parsed JSON document. -/
def IpcCommand.ofJson : Json → Option IpcCommand
  | .obj (.cons k1 (.str t) (.cons k2 (.obj p)
      (.cons k3 (.str sg) .nil))) =>
    if k1 = "type".data ∧ k2 = "payload".data ∧ k3 = "source_group".data then
      some ⟨t, p, sg⟩
    else none
  | _ => none

/-- `writeIpcCommand` (ipc-writer.ts:17–31): the final path
`<ipcDir>/tasks/<timestamp>-<random>.json` and the file contents
`JSON.stringify(command, null, 2)`.  The write is atomic (temp file then
rename); only the contents that appear at the final path are modelled. -/
def writeIpcCommand (ipcDir : List Char) (command : IpcCommand)
    (timestamp : Nat) (random : List Char) : List Char × List Char :=
  (ipcDir ++ "/tasks/".data ++ natToChars timestamp ++ '-' :: random ++
     ".json".data,
   stringifyJson command.toJson)

/-! ### Decimal numerals -/

/-- A digit character is a digit. -/
theorem digitCh_isDigit (d : Nat) (h : d < 10) :
    isDigitCh (digitCh d) = true := by
  interval_cases d <;> decide

/-- Numeric value of a digit character. -/
theorem digitCh_toNat (d : Nat) (h : d < 10) :
    (digitCh d).toNat = 48 + d := by
  interval_cases d <;> decide

/-- Numerals are nonempty. -/
theorem natToChars_ne_nil (n : Nat) : natToChars n ≠ [] := by
  rw [natToChars]
  split <;> simp

/-- All characters of a numeral are digits. -/
theorem natToChars_all_digits (n : Nat) :
    ∀ c ∈ natToChars n, isDigitCh c = true := by
  induction n using natToChars.induct with
  | case1 n h =>
    intro c hc
    rw [natToChars, dif_pos h] at hc
    simp only [List.mem_singleton] at hc
    subst hc
    exact digitCh_isDigit n h
  | case2 n h ih =>
    intro c hc
    rw [natToChars, dif_neg h] at hc
    rcases List.mem_append.mp hc with hc | hc
    · exact ih c hc
    · simp only [List.mem_singleton] at hc
      subst hc
      exact digitCh_isDigit _ (Nat.mod_lt _ (by omega))

/-- A numeral starts with a digit. -/
theorem natToChars_head (n : Nat) :
    ∃ c t, natToChars n = c :: t ∧ isDigitCh c = true := by
  cases hn : natToChars n with
  | nil => exact absurd hn (natToChars_ne_nil n)
  | cons c t =>
    exact ⟨c, t, rfl, natToChars_all_digits n c (by rw [hn]; simp)⟩

/-- Appending one digit multiplies the value by ten and adds it. -/
theorem digitsVal_append (ds : List Char) (c : Char) :
    digitsVal (ds ++ [c]) = 10 * digitsVal ds + (c.toNat - '0'.toNat) := by
  simp [digitsVal, List.foldl_append]
  omega

/-- A numeral evaluates back to its number. -/
theorem digitsVal_natToChars (n : Nat) : digitsVal (natToChars n) = n := by
  induction n using natToChars.induct with
  | case1 n h =>
    rw [natToChars, dif_pos h]
    have := digitCh_toNat n h
    simp [digitsVal]
    omega
  | case2 n h ih =>
    rw [natToChars, dif_neg h, digitsVal_append, ih,
      digitCh_toNat _ (Nat.mod_lt _ (by omega))]
    have h0 : '0'.toNat = 48 := by decide
    rw [h0]
    have := Nat.div_add_mod n 10
    omega

/-- `takeWhile`/`dropWhile` on a run of satisfying characters followed by a
non-satisfying (or empty) remainder. -/
theorem takeWhile_dropWhile_append (p : Char → Bool) :
    ∀ (ds rest : List Char), (∀ c ∈ ds, p c = true) →
      (∀ c, rest.head? = some c → p c = false) →
      (ds ++ rest).takeWhile p = ds ∧ (ds ++ rest).dropWhile p = rest := by
  intro ds
  induction ds with
  | nil =>
    intro rest _ hrest
    cases rest with
    | nil => simp
    | cons c t =>
      have := hrest c rfl
      simp [List.takeWhile, List.dropWhile, this]
  | cons d ds ih =>
    intro rest hds hrest
    have hd := hds d (by simp)
    have ⟨h1, h2⟩ := ih rest (fun c hc => hds c (by simp [hc])) hrest
    simp [List.takeWhile, List.dropWhile, hd, h1, h2]

/-- The integer parser inverts integer printing, provided what follows does
not start with a digit. -/
theorem parseJsonNumber_round (i : Int) (rest : List Char)
    (hrest : ∀ c, rest.head? = some c → isDigitCh c = false) :
    parseJsonNumber (intToChars i ++ rest) = some (.num i, rest) := by
  by_cases hneg : i < 0
  · rw [intToChars, if_pos hneg]
    obtain ⟨htake, hdrop⟩ := takeWhile_dropWhile_append isDigitCh
      (natToChars i.natAbs) rest (natToChars_all_digits _) hrest
    rw [List.cons_append, parseJsonNumber]
    simp only [htake, hdrop, List.isEmpty_iff]
    rw [if_neg (natToChars_ne_nil _), digitsVal_natToChars]
    have : -(i.natAbs : Int) = i := by omega
    rw [this]
  · rw [intToChars, if_neg hneg]
    obtain ⟨c, t, hct, hdig⟩ := natToChars_head i.toNat
    obtain ⟨htake, hdrop⟩ := takeWhile_dropWhile_append isDigitCh
      (natToChars i.toNat) rest (natToChars_all_digits _) hrest
    have hcm : c ≠ '-' := fun hEq => by
      rw [hEq] at hdig
      exact absurd hdig (by decide)
    rw [hct, List.cons_append, parseJsonNumber]
    rw [← List.cons_append, ← hct]
    simp only [htake, hdrop, List.isEmpty_iff]
    rw [if_neg (natToChars_ne_nil _), digitsVal_natToChars]
    have : ((i.toNat : Int)) = i := by omega
    rw [this]
    intro r h
    injection h with h1 _
    exact hcm h1

/-! ### Whitespace and dispatch characters -/

/-- `skipWs` keeps a non-whitespace head. -/
theorem skipWs_not_ws (c : Char) (t : List Char) (h : isJsonWs c = false) :
    skipWs (c :: t) = c :: t := by
  simp [skipWs, List.dropWhile, h]

/-- `skipWs` consumes a whitespace head. -/
theorem skipWs_ws (c : Char) (t : List Char) (h : isJsonWs c = true) :
    skipWs (c :: t) = skipWs t := by
  simp [skipWs, List.dropWhile, h]

/-- `skipWs` consumes a run of spaces. -/
theorem skipWs_replicate (n : Nat) (s : List Char) :
    skipWs (List.replicate n ' ' ++ s) = skipWs s := by
  induction n with
  | zero => simp
  | succ n ih =>
    rw [List.replicate_succ, List.cons_append, skipWs_ws _ _ (by decide), ih]

/-- `skipWs` consumes the line break and indentation `stringifyAt`
inserts. -/
theorem skipWs_nl_indent (l : Nat) (s : List Char) :
    skipWs ('\n' :: (jsonIndent l ++ s)) = skipWs s := by
  rw [skipWs_ws _ _ (by decide), jsonIndent, skipWs_replicate]

/-- A number's first character (digit or minus) drives the parser to the
number arm: it is not whitespace, none of the keyword/structure starters,
and none of the closers. -/
theorem numStart_not_kw (c : Char) (h : isDigitCh c = true ∨ c = '-') :
    isJsonWs c = false ∧ c ≠ 'n' ∧ c ≠ 't' ∧ c ≠ 'f' ∧ c ≠ '"' ∧ c ≠ '[' ∧
      c ≠ '\x7b' ∧ c ≠ ']' ∧ c ≠ '\x7d' ∧ c ≠ ',' := by
  rcases h with h | h
  · simp only [isDigitCh, Bool.or_eq_true, decide_eq_true_eq] at h
    rcases h with ((((((((h | h) | h) | h) | h) | h) | h) | h) | h) | h <;>
      subst h <;> decide
  · subst h
    decide

/-- Every serialized value starts with a character that is not whitespace
and not one of the closing/separator characters. -/
theorem stringifyAt_head (v : Json) (l : Nat) :
    ∃ c t, stringifyAt v l = c :: t ∧ isJsonWs c = false ∧
      c ≠ ']' ∧ c ≠ '\x7d' ∧ c ≠ ',' := by
  cases v with
  | null => exact ⟨'n', _, rfl, by decide, by decide, by decide, by decide⟩
  | bool b =>
    cases b with
    | false => exact ⟨'f', _, rfl, by decide, by decide, by decide, by decide⟩
    | true => exact ⟨'t', _, rfl, by decide, by decide, by decide, by decide⟩
  | num n =>
    by_cases hneg : n < 0
    · refine ⟨'-', natToChars n.natAbs, ?_, by decide, by decide, by decide,
        by decide⟩
      rw [show stringifyAt (.num n) l = intToChars n from rfl, intToChars,
        if_pos hneg]
    · obtain ⟨c, t, hct, hdig⟩ := natToChars_head n.toNat
      have hp := numStart_not_kw c (Or.inl hdig)
      refine ⟨c, t, ?_, hp.1, hp.2.2.2.2.2.2.2.1, hp.2.2.2.2.2.2.2.2.1,
        hp.2.2.2.2.2.2.2.2.2⟩
      rw [show stringifyAt (.num n) l = intToChars n from rfl, intToChars,
        if_neg hneg, hct]
  | str s => exact ⟨'"', _, rfl, by decide, by decide, by decide, by decide⟩
  | arr xs =>
    cases xs with
    | nil => exact ⟨'[', _, rfl, by decide, by decide, by decide, by decide⟩
    | cons x t =>
      exact ⟨'[', _, rfl, by decide, by decide, by decide, by decide⟩
  | obj fs =>
    cases fs with
    | nil =>
      exact ⟨'\x7b', _, rfl, by decide, by decide, by decide, by decide⟩
    | cons k v t =>
      exact ⟨'\x7b', _, rfl, by decide, by decide, by decide, by decide⟩

/-- `hexVal` inverts `hexDigitCh`. -/
theorem hexVal_hexDigitCh (d : Nat) (h : d < 16) :
    hexVal (hexDigitCh d) = some d := by
  interval_cases d <;> decide

/-- The string-body parser inverts `JSON.stringify`'s escaping: the escaped
body followed by the closing quote parses back to the original characters,
leaving the remainder untouched. -/
theorem parseStringBody_escape : ∀ (s rest : List Char),
    parseStringBody (escapeJsonString s ++ '"' :: rest) = some (s, rest) := by
  intro s
  induction s with
  | nil =>
    intro rest
    rw [escapeJsonString, List.nil_append, parseStringBody.eq_def]
    simp
  | cons c t ih =>
    intro rest
    rw [escapeJsonString, List.append_assoc]
    by_cases h1 : c = '"'
    · subst h1
      simp [escapeJsonChar, parseStringBody, decodeEscape, ih]
    · by_cases h2 : c = '\\'
      · subst h2
        simp [escapeJsonChar, parseStringBody, decodeEscape, ih]
      · by_cases h3 : c = '\x08'
        · subst h3
          simp [escapeJsonChar, parseStringBody, decodeEscape, ih]
        · by_cases h4 : c = '\x09'
          · subst h4
            simp [escapeJsonChar, parseStringBody, decodeEscape, ih]
          · by_cases h5 : c = '\x0a'
            · subst h5
              simp [escapeJsonChar, parseStringBody, decodeEscape, ih]
            · by_cases h6 : c = '\x0c'
              · subst h6
                simp [escapeJsonChar, parseStringBody, decodeEscape, ih]
              · by_cases h7 : c = '\x0d'
                · subst h7
                  simp [escapeJsonChar, parseStringBody, decodeEscape, ih]
                · by_cases h8 : c.toNat < 0x20
                  · rw [escapeJsonChar, if_neg h1, if_neg h2, if_neg h3,
                      if_neg h4, if_neg h5, if_neg h6, if_neg h7, if_pos h8]
                    have hdiv : hexVal (hexDigitCh (c.toNat / 16)) =
                        some (c.toNat / 16) :=
                      hexVal_hexDigitCh _ (by omega)
                    have hmod : hexVal (hexDigitCh (c.toNat % 16)) =
                        some (c.toNat % 16) :=
                      hexVal_hexDigitCh _ (by omega)
                    simp only [List.cons_append, List.nil_append]
                    rw [parseStringBody]
                    simp [hdiv, hmod, ih,
                      show hexVal '0' = some 0 from by decide]
                    rw [show c.toNat / 16 * 16 + c.toNat % 16 = c.toNat
                      from by omega, Char.ofNat_toNat]
                  · rw [escapeJsonChar, if_neg h1, if_neg h2, if_neg h3,
                      if_neg h4, if_neg h5, if_neg h6, if_neg h7, if_neg h8]
                    rw [List.cons_append, List.nil_append,
                      parseStringBody.eq_def]
                    simp [h1, h2, ih]

/-! ### The parser inverts the serializer -/

/-- Values have positive size. -/
theorem sizeJ_pos (v : Json) : 1 ≤ sizeJ v := by
  cases v <;> simp [sizeJ]

/-- Array tails have positive size. -/
theorem sizeA_pos (t : JsonArr) : 1 ≤ sizeA t := by
  cases t with
  | nil => simp [sizeA]
  | cons x u => simp only [sizeA]; omega

/-- Object tails have positive size. -/
theorem sizeO_pos (t : JsonObj) : 1 ≤ sizeO t := by
  cases t with
  | nil => simp [sizeO]
  | cons k v u => simp only [sizeO]; omega

/-- A serialized integer starts with a digit or a minus sign. -/
theorem intToChars_head (i : Int) :
    ∃ c t, intToChars i = c :: t ∧ (isDigitCh c = true ∨ c = '-') := by
  by_cases h : i < 0
  · exact ⟨'-', natToChars i.natAbs, by rw [intToChars, if_pos h], Or.inr rfl⟩
  · obtain ⟨c, t, hct, hdig⟩ := natToChars_head i.toNat
    exact ⟨c, t, by rw [intToChars, if_neg h, hct], Or.inl hdig⟩

/-- `skipWs` leaves a serialized value alone. -/
theorem skipWs_stringify (v : Json) (l : Nat) (s : List Char) :
    skipWs (stringifyAt v l ++ s) = stringifyAt v l ++ s := by
  obtain ⟨c, t, hct, hws, _, _, _⟩ := stringifyAt_head v l
  rw [hct, List.cons_append, skipWs_not_ws _ _ hws]

/-- What follows a serialized array element never starts with a digit. -/
theorem arrTail_head_not_digit (t : JsonArr) (l : Nat) (s : List Char) :
    ∀ c, (stringifyArrTail t l ++ '\n' :: s).head? = some c →
      isDigitCh c = false := by
  cases t with
  | nil =>
    intro c hc
    simp [stringifyArrTail] at hc
    subst hc
    decide
  | cons y u =>
    intro c hc
    simp [stringifyArrTail] at hc
    subst hc
    decide

/-- `skipWs` keeps a leading colon. -/
theorem skipWs_cons_colon (t : List Char) : skipWs (':' :: t) = ':' :: t :=
  skipWs_not_ws _ _ (by decide)

/-- `skipWs` keeps a leading comma. -/
theorem skipWs_cons_comma (t : List Char) : skipWs (',' :: t) = ',' :: t :=
  skipWs_not_ws _ _ (by decide)

/-- `skipWs` keeps a leading closing bracket. -/
theorem skipWs_cons_rbracket (t : List Char) : skipWs (']' :: t) = ']' :: t :=
  skipWs_not_ws _ _ (by decide)

/-- `skipWs` keeps a leading closing brace. -/
theorem skipWs_cons_rbrace (t : List Char) :
    skipWs ('\x7d' :: t) = '\x7d' :: t :=
  skipWs_not_ws _ _ (by decide)

/-- `skipWs` leaves a quoted key alone. -/
theorem skipWs_quote (k s : List Char) :
    skipWs (quoteJson k ++ s) = quoteJson k ++ s := by
  rw [quoteJson]
  simp only [List.cons_append, List.append_assoc]
  rw [skipWs_not_ws _ _ (by decide)]

/-- What follows a serialized object member never starts with a digit. -/
theorem objTail_head_not_digit (t : JsonObj) (l : Nat) (s : List Char) :
    ∀ c, (stringifyObjTail t l ++ '\n' :: s).head? = some c →
      isDigitCh c = false := by
  cases t with
  | nil =>
    intro c hc
    simp [stringifyObjTail] at hc
    subst hc
    decide
  | cons k v u =>
    intro c hc
    simp [stringifyObjTail] at hc
    subst hc
    decide

/-- The parser inverts the serializer.  The three statements of the
grammar's mutual recursion (value, array elements, object members) are
proved together by strong induction on serialized size: with enough fuel
the parser consumes exactly the serialized form and returns the original
structure, leaving the remainder (which, as everywhere in the serializer's
output, does not start with a digit) untouched. -/
theorem parse_stringify_strong : ∀ n : Nat,
    (∀ (v : Json) (fuel l : Nat) (rest : List Char), sizeJ v ≤ n →
      sizeJ v ≤ fuel →
      (∀ c, rest.head? = some c → isDigitCh c = false) →
      parseVal fuel (stringifyAt v l ++ rest) = some (v, rest)) ∧
    (∀ (x : Json) (t : JsonArr) (fuel l : Nat) (rest : List Char),
      sizeJ x + sizeA t ≤ n → sizeJ x + sizeA t ≤ fuel →
      parseArrItems fuel (stringifyAt x (l + 1) ++ (stringifyArrTail t (l + 1) ++
        '\n' :: (jsonIndent l ++ ']' :: rest))) = some (.cons x t, rest)) ∧
    (∀ (k : List Char) (v : Json) (t : JsonObj) (fuel l : Nat)
      (rest : List Char),
      sizeJ v + sizeO t ≤ n → sizeJ v + sizeO t ≤ fuel →
      parseObjMembers fuel (quoteJson k ++
        (':' :: ' ' :: (stringifyAt v (l + 1) ++ (stringifyObjTail t (l + 1) ++
          '\n' :: (jsonIndent l ++ '\x7d' :: rest))))) =
        some (.cons k v t, rest)) := by
  intro n
  induction n with
  | zero =>
    refine ⟨fun v _ _ _ hn _ _ => ?_, fun x t _ _ _ hn _ => ?_,
      fun k v t _ _ _ hn _ => ?_⟩
    · have := sizeJ_pos v
      omega
    · have := sizeJ_pos x
      omega
    · have := sizeJ_pos v
      omega
  | succ n ihn =>
    obtain ⟨ihV, ihA, ihO⟩ := ihn
    refine ⟨?_, ?_, ?_⟩
    · intro v fuel l rest hn hsz hrest
      have hvpos := sizeJ_pos v
      cases fuel with
      | zero => omega
      | succ f =>
        cases v with
        | null =>
          rw [show stringifyAt .null l ++ rest =
            'n' :: 'u' :: 'l' :: 'l' :: rest from rfl]
          rw [parseVal, skipWs_not_ws _ _ (by decide)]
          simp
        | bool b =>
          cases b with
          | true =>
            rw [show stringifyAt (.bool true) l ++ rest =
              't' :: 'r' :: 'u' :: 'e' :: rest from rfl]
            rw [parseVal, skipWs_not_ws _ _ (by decide)]
            simp
          | false =>
            rw [show stringifyAt (.bool false) l ++ rest =
              'f' :: 'a' :: 'l' :: 's' :: 'e' :: rest from rfl]
            rw [parseVal, skipWs_not_ws _ _ (by decide)]
            simp
        | num m =>
          obtain ⟨c, tc, hct, hd⟩ := intToChars_head m
          obtain ⟨hws, hn2, ht, hf, hq, hbr, hbc, _, _, _⟩ :=
            numStart_not_kw c hd
          rw [show stringifyAt (.num m) l = intToChars m from rfl, hct,
            List.cons_append]
          rw [parseVal, skipWs_not_ws _ _ hws]
          simp only [if_neg hn2, if_neg ht, if_neg hf, if_neg hq, if_neg hbr,
            if_neg hbc]
          rw [← List.cons_append, ← hct]
          exact parseJsonNumber_round m rest hrest
        | str s =>
          rw [show stringifyAt (.str s) l ++ rest =
            '"' :: (escapeJsonString s ++ '"' :: rest) from by
              simp [stringifyAt, quoteJson]]
          rw [parseVal, skipWs_not_ws _ _ (by decide)]
          simp [parseStringBody_escape]
        | arr xs =>
          cases xs with
          | nil =>
            rw [show stringifyAt (.arr .nil) l ++ rest = '[' :: ']' :: rest
              from rfl]
            rw [parseVal, skipWs_not_ws _ _ (by decide)]
            simp only [sizeJ, sizeA] at hsz
            cases f with
            | zero => omega
            | succ f2 =>
              simp [parseArrItems, skipWs_not_ws ']' rest (by decide)]
          | cons x t =>
            rw [show stringifyAt (.arr (.cons x t)) l ++ rest =
              '[' :: '\n' :: (jsonIndent (l + 1) ++ (stringifyAt x (l + 1) ++
                (stringifyArrTail t (l + 1) ++ '\n' :: (jsonIndent l ++
                  ']' :: rest)))) from by
                simp [stringifyAt, List.append_assoc]]
            rw [parseVal, skipWs_not_ws _ _ (by decide)]
            simp only [if_neg (by decide : ¬('[' : Char) = 'n'),
              if_neg (by decide : ¬('[' : Char) = 't'),
              if_neg (by decide : ¬('[' : Char) = 'f'),
              if_neg (by decide : ¬('[' : Char) = '"'),
              if_pos (rfl : ('[' : Char) = '[')]
            rw [skipWs_nl_indent, skipWs_stringify]
            simp only [sizeJ, sizeA] at hsz hn
            rw [ihA x t f l rest (by omega) (by omega)]
            rfl
        | obj fs =>
          cases fs with
          | nil =>
            rw [show stringifyAt (.obj .nil) l ++ rest =
              '\x7b' :: '\x7d' :: rest from rfl]
            rw [parseVal, skipWs_not_ws _ _ (by decide)]
            simp only [sizeJ, sizeO] at hsz
            cases f with
            | zero => omega
            | succ f2 =>
              simp [parseObjMembers, skipWs_not_ws '\x7d' rest (by decide)]
          | cons k v t =>
            rw [show stringifyAt (.obj (.cons k v t)) l ++ rest =
              '\x7b' :: '\n' :: (jsonIndent (l + 1) ++ (quoteJson k ++
                (':' :: ' ' :: (stringifyAt v (l + 1) ++
                  (stringifyObjTail t (l + 1) ++
                    '\n' :: (jsonIndent l ++ '\x7d' :: rest)))))) from by
                simp [stringifyAt, List.append_assoc]]
            rw [parseVal, skipWs_not_ws _ _ (by decide)]
            simp only [if_neg (by decide : ¬('\x7b' : Char) = 'n'),
              if_neg (by decide : ¬('\x7b' : Char) = 't'),
              if_neg (by decide : ¬('\x7b' : Char) = 'f'),
              if_neg (by decide : ¬('\x7b' : Char) = '"'),
              if_neg (by decide : ¬('\x7b' : Char) = '['),
              if_pos (rfl : ('\x7b' : Char) = '\x7b')]
            rw [skipWs_nl_indent, skipWs_quote]
            simp only [sizeJ, sizeO] at hsz hn
            rw [ihO k v t f l rest (by omega) (by omega)]
            rfl
    · intro x t fuel l rest hn hsz
      have hxpos := sizeJ_pos x
      have htpos := sizeA_pos t
      cases fuel with
      | zero => omega
      | succ f =>
        obtain ⟨c, tc, hct, hws, hbr, _, _⟩ := stringifyAt_head x (l + 1)
        rw [hct, List.cons_append, parseArrItems.eq_def]
        simp only [if_neg hbr]
        rw [← List.cons_append, ← hct,
          ihV x f (l + 1) _ (by omega) (by omega)
            (arrTail_head_not_digit t (l + 1) _)]
        cases t with
        | nil =>
          rw [show stringifyArrTail .nil (l + 1) = [] from rfl,
            List.nil_append]
          simp only [skipWs_nl_indent, skipWs_cons_rbracket]
          simp
        | cons y u =>
          rw [show stringifyArrTail (.cons y u) (l + 1) ++
              '\n' :: (jsonIndent l ++ ']' :: rest) =
            ',' :: '\n' :: (jsonIndent (l + 1) ++ (stringifyAt y (l + 1) ++
              (stringifyArrTail u (l + 1) ++ '\n' :: (jsonIndent l ++
                ']' :: rest)))) from by
              simp [stringifyArrTail, List.append_assoc]]
          simp only [skipWs_cons_comma, if_pos (rfl : (',' : Char) = ','),
            skipWs_nl_indent, skipWs_stringify]
          simp only [sizeA] at hsz hn
          rw [ihA y u f l rest (by omega) (by omega)]
          rfl
    · intro k v t fuel l rest hn hsz
      have hvpos := sizeJ_pos v
      have htpos := sizeO_pos t
      cases fuel with
      | zero => omega
      | succ f =>
        rw [show quoteJson k ++
            (':' :: ' ' :: (stringifyAt v (l + 1) ++
              (stringifyObjTail t (l + 1) ++
                '\n' :: (jsonIndent l ++ '\x7d' :: rest)))) =
          '"' :: (escapeJsonString k ++ '"' ::
            (':' :: ' ' :: (stringifyAt v (l + 1) ++
              (stringifyObjTail t (l + 1) ++
                '\n' :: (jsonIndent l ++ '\x7d' :: rest))))) from by
            simp [quoteJson, List.append_assoc]]
        rw [parseObjMembers]
        simp only [if_neg (by decide : ¬('"' : Char) = '\x7d'),
          if_pos (rfl : ('"' : Char) = '"')]
        rw [parseStringBody_escape]
        simp only [skipWs_cons_colon, if_pos (rfl : (':' : Char) = ':'),
          skipWs_ws ' ' _ (by decide), skipWs_stringify]
        rw [ihV v f (l + 1) _ (by omega) (by omega)
          (objTail_head_not_digit t (l + 1) _)]
        cases t with
        | nil =>
          rw [show stringifyObjTail .nil (l + 1) = [] from rfl,
            List.nil_append]
          simp only [skipWs_nl_indent, skipWs_cons_rbrace]
          simp
        | cons k2 v2 u =>
          rw [show stringifyObjTail (.cons k2 v2 u) (l + 1) ++
              '\n' :: (jsonIndent l ++ '\x7d' :: rest) =
            ',' :: '\n' :: (jsonIndent (l + 1) ++ (quoteJson k2 ++
              (':' :: ' ' :: (stringifyAt v2 (l + 1) ++
                (stringifyObjTail u (l + 1) ++
                  '\n' :: (jsonIndent l ++ '\x7d' :: rest)))))) from by
              simp [stringifyObjTail, List.append_assoc]]
          simp only [skipWs_cons_comma, if_pos (rfl : (',' : Char) = ','),
            skipWs_nl_indent, skipWs_quote]
          simp only [sizeO] at hsz hn
          rw [ihO k2 v2 u f l rest (by omega) (by omega)]
          rfl

/-- With enough fuel, `parseVal` parses back exactly what `stringifyAt`
produced, leaving the (non-digit-starting) remainder untouched. -/
theorem parseVal_stringify (v : Json) (fuel l : Nat) (rest : List Char)
    (hsz : sizeJ v ≤ fuel)
    (hrest : ∀ c, rest.head? = some c → isDigitCh c = false) :
    parseVal fuel (stringifyAt v l ++ rest) = some (v, rest) :=
  (parse_stringify_strong (sizeJ v)).1 v fuel l rest (Nat.le_refl _) hsz hrest

/-- The node count of a value never exceeds its serialized length (so the
fuel `length + 1` that `parseJson` passes is always sufficient).  Proved by
strong induction on size together with the statements for array and object
tails. -/
theorem size_le_length_strong : ∀ n : Nat,
    (∀ (v : Json) (l : Nat), sizeJ v ≤ n →
      sizeJ v ≤ (stringifyAt v l).length) ∧
    (∀ (t : JsonArr) (l : Nat), sizeA t ≤ n →
      sizeA t ≤ (stringifyArrTail t l).length + 1) ∧
    (∀ (t : JsonObj) (l : Nat), sizeO t ≤ n →
      sizeO t ≤ (stringifyObjTail t l).length + 1) := by
  intro n
  induction n with
  | zero =>
    refine ⟨fun v _ hn => ?_, fun t _ hn => ?_, fun t _ hn => ?_⟩
    · have := sizeJ_pos v
      omega
    · have := sizeA_pos t
      omega
    · have := sizeO_pos t
      omega
  | succ n ihn =>
    obtain ⟨ihV, ihA, ihO⟩ := ihn
    refine ⟨?_, ?_, ?_⟩
    · intro v l hn
      cases v with
      | null => simp [sizeJ, stringifyAt]
      | bool b => cases b <;> simp [sizeJ, stringifyAt]
      | num m =>
        obtain ⟨c, tc, hct, _⟩ := intToChars_head m
        simp [sizeJ, stringifyAt, hct]
      | str s =>
        simp only [sizeJ, stringifyAt, quoteJson, List.length_cons,
          List.length_append]
        omega
      | arr xs =>
        cases xs with
        | nil => simp [sizeJ, sizeA, stringifyAt]
        | cons x t =>
          simp only [sizeJ, sizeA] at hn ⊢
          have hxp := sizeJ_pos x
          have htp := sizeA_pos t
          have h1 := ihV x (l + 1) (by omega)
          have h2 := ihA t (l + 1) (by omega)
          simp only [stringifyAt, List.length_cons, List.length_append,
            jsonIndent, List.length_replicate]
          omega
      | obj fs =>
        cases fs with
        | nil => simp [sizeJ, sizeO, stringifyAt]
        | cons k v t =>
          simp only [sizeJ, sizeO] at hn ⊢
          have hvp := sizeJ_pos v
          have htp := sizeO_pos t
          have h1 := ihV v (l + 1) (by omega)
          have h2 := ihO t (l + 1) (by omega)
          simp only [stringifyAt, List.length_cons, List.length_append,
            jsonIndent, List.length_replicate]
          omega
    · intro t l hn
      cases t with
      | nil => simp [sizeA, stringifyArrTail]
      | cons x u =>
        simp only [sizeA] at hn ⊢
        have hxp := sizeJ_pos x
        have hup := sizeA_pos u
        have h1 := ihV x l (by omega)
        have h2 := ihA u l (by omega)
        simp only [stringifyArrTail, List.length_cons, List.length_append,
          jsonIndent, List.length_replicate]
        omega
    · intro t l hn
      cases t with
      | nil => simp [sizeO, stringifyObjTail]
      | cons k v u =>
        simp only [sizeO] at hn ⊢
        have hvp := sizeJ_pos v
        have hup := sizeO_pos u
        have h1 := ihV v l (by omega)
        have h2 := ihO u l (by omega)
        simp only [stringifyObjTail, List.length_cons, List.length_append,
          jsonIndent, List.length_replicate]
        omega

/-- `JSON.parse` inverts `JSON.stringify(·, null, 2)` on every value of the
JSON model. -/
theorem parseJson_stringify (v : Json) :
    parseJson (stringifyJson v) = some v := by
  have hlen := (size_le_length_strong (sizeJ v)).1 v 0 (Nat.le_refl _)
  have h := parseVal_stringify v ((stringifyAt v 0).length + 1) 0 []
    (by omega) (fun c hc => by simp at hc)
  rw [List.append_nil] at h
  simp only [parseJson, stringifyJson]
  rw [h]
  simp [skipWs]

/-- Reading back the serialized field record recovers the command. -/
theorem IpcCommand.ofJson_toJson (c : IpcCommand) :
    IpcCommand.ofJson (IpcCommand.toJson c) = some c := by
  cases c with
  | mk t p sg => simp [IpcCommand.toJson, IpcCommand.ofJson]

/-- C7: serializing an `IpcCommand` to disk with `writeIpcCommand` and
reading the resulting file back (`JSON.parse` of its contents, then
reassembling the field record) yields a value deep-equal to the original
command: the parsed document is exactly the command's JSON form, and
extracting the fields returns the original command. -/
theorem writeIpcCommand_roundtrip (ipcDir : List Char)
    (command : IpcCommand) (timestamp : Nat) (random : List Char) :
    parseJson (writeIpcCommand ipcDir command timestamp random).2 =
      some command.toJson ∧
    (parseJson (writeIpcCommand ipcDir command timestamp random).2).bind
      IpcCommand.ofJson = some command := by
  have h : (writeIpcCommand ipcDir command timestamp random).2 =
      stringifyJson command.toJson := rfl
  rw [h, parseJson_stringify]
  exact ⟨rfl, by simp [IpcCommand.ofJson_toJson]⟩

end Mdclaw
